import Mathlib

/-!
Shallow embedding of the doc-index core: semantic document segmentation
(`chunking.ts`: `chunkDocumentSemantic`, `detectBreakPoints`, `buildSegments`,
`mergeSegments`, `normalizeSmallChunks`, `enforceMaxSize`, `findSplitPoint`)
and multi-modal result fusion (`fuseModalityResults`, `normalizeScores`,
`computeConfidence`, `computeModalityWeights`, `softmax`).

Modelling conventions:
* JS strings are `List Char`; JS numbers are `ℚ` (exact field arithmetic in
  place of IEEE doubles); token counts are `ℕ`.
* External collaborators and transcendental functions are explicit function
  parameters: the token estimator `tokensFor : List Char → ℕ` (`countTokens`),
  the sentence segmenter `splitter : List Char → List (List Char)`
  (`splitIntoSentences`, whose locale-aware/regex strategy is environment
  dependent and injected, per the pluggable-strategy design note), the
  embedding generator `embedder`, `Math.exp` as `expF : ℚ → ℚ` and
  `Math.sqrt` as `sqrtF : ℚ → ℚ`.
* `Array.prototype.sort(cmp)` is modelled by a stable structural insertion
  sort `sortLe` over the boolean relation `le a b` ("a may come before b"),
  which for the comparator `(a, b) => b.score - a.score` is
  `fun a b => b.score ≤ a.score`.
* JS `Map` (insertion-ordered, keyed by string) is an association list with
  `mapSet` replacing the first binding in place or appending, and `mapGet`
  returning the first binding.
-/

namespace DocIndex

/-- Character class of the JS regex `\s` (whitespace), as used by `trim`,
`\s+\n` and friends. -/
def isWs (c : Char) : Bool :=
  c = ' ' || c = '\t' || c = '\n' || c = '\r' || c = '\x0b' || c = '\x0c' ||
  c = ' ' || c = ' ' ||
  (' ' ≤ c && c ≤ ' ') ||
  c = ' ' || c = ' ' || c = ' ' || c = ' ' ||
  c = '　' || c = '﻿'

/-- All non-whitespace characters of a string, in order.  Used to state
"ignoring inserted separators and trimming" properties. -/
def removeWs (l : List Char) : List Char :=
  l.filter (fun c => !(isWs c))

/-- JS `String.prototype.trim`: drop leading and trailing `\s` characters. -/
def jsTrim (l : List Char) : List Char :=
  ((l.dropWhile isWs).reverse.dropWhile isWs).reverse

/-- The regex replacement `.replace(/\r\n/g, '\n')` from `normalizeContent`. -/
def replaceCrLf : List Char → List Char
  | '\r' :: '\n' :: rest => '\n' :: replaceCrLf rest
  | c :: rest => c :: replaceCrLf rest
  | [] => []

/-- The regex replacement `.replace(/\s+\n/g, '\n')` from `normalizeContent`.
A greedy leftmost match collapses, inside each maximal whitespace run, the
whole prefix up to the run's last `\n` (when that `\n` is not the run's first
character is irrelevant: a whitespace character is emitted exactly when no
`\n` occurs later in its whitespace run).  Stated character-wise: drop a
whitespace character iff the remaining whitespace run after it contains a
`\n`; this is the exact effect of the global greedy replacement. -/
def collapseWsNl : List Char → List Char
  | [] => []
  | c :: cs =>
    if isWs c && (cs.takeWhile isWs).contains '\n' then collapseWsNl cs
    else c :: collapseWsNl cs

/-- `normalizeContent` from `chunking.ts`:
`content.replace(/\r\n/g, '\n').replace(/\s+\n/g, '\n').trim()`. -/
def normalizeContent (content : List Char) : List Char :=
  jsTrim (collapseWsNl (replaceCrLf content))

/-- JS `array.join(' ')` on a list of strings: the pieces separated by
single spaces. -/
def joinSp : List (List Char) → List Char
  | [] => []
  | [p] => p
  | p :: q :: rest => p ++ ' ' :: joinSp (q :: rest)

/-- One step of the insertion sort modelling `Array.prototype.sort(cmp)`:
insert `x` after every element `y` with `le y x` (i.e. `cmp(y, x) ≤ 0`). -/
def insertLe {α : Type} (le : α → α → Bool) (x : α) : List α → List α
  | [] => [x]
  | y :: ys => if le y x then y :: insertLe le x ys else x :: y :: ys

/-- Stable comparison sort modelling `Array.prototype.sort(cmp)`, where
`le a b` means `cmp(a, b) ≤ 0` ("a may come before b"). -/
def sortLe {α : Type} (le : α → α → Bool) (l : List α) : List α :=
  l.foldr (insertLe le) []

/-- Lookup in the association-list model of a JS `Map`. -/
def mapGet {α : Type} : List (String × α) → String → Option α
  | [], _ => none
  | p :: m, k => if p.1 == k then some p.2 else mapGet m k

/-- JS `Map.prototype.set`: replace the (unique) existing binding in place,
else append a new binding at the end (insertion order is preserved). -/
def mapSet {α : Type} : List (String × α) → String → α → List (String × α)
  | [], k, v => [(k, v)]
  | p :: m, k, v => if p.1 == k then (k, v) :: m else p :: mapSet m k v

/-- JS `map.values()` in insertion order. -/
def mapValues {α : Type} (m : List (String × α)) : List α :=
  m.map (fun p => p.2)

/-! ## Fusion pipeline (query time) -/

/-- The slice of `VectorMetadata` that the fusion code inspects
(`metadata.modality`); the many other metadata fields are carried through
fusion untouched and are irrelevant to every claim, so they are not listed. -/
structure VectorMetadata where
  modality : Option String
  contentType : Option String
deriving DecidableEq, Repr

/-- A `SearchResult` (`{ id, score, metadata }`). -/
structure SearchResult where
  id : String
  score : ℚ
  metadata : VectorMetadata
deriving DecidableEq, Repr

/-- The ids of a result list, in order. -/
def resultIds (l : List SearchResult) : List String :=
  l.map (fun r => r.id)

/-- Maximum of the raw scores (JS `Math.max(...scores)` on a non-empty
array; on `[]` the JS call never happens). -/
def maxScore (results : List SearchResult) : ℚ :=
  let scores := results.map (fun r => r.score)
  scores.foldl max (scores.headD 0)

/-- Minimum of the raw scores (JS `Math.min(...scores)`). -/
def minScore (results : List SearchResult) : ℚ :=
  let scores := results.map (fun r => r.score)
  scores.foldl min (scores.headD 0)

/-- The `value` computed for one result inside `normalizeScores`' loop
(`denominator` is `maxScore - minScore`; a zero denominator yields `1` for a
flat nonzero distribution and `0` for an all-zero one). -/
def nsValue (results : List SearchResult) (r : SearchResult) : ℚ :=
  if maxScore results - minScore results = 0 then
    (if maxScore results ≠ 0 then 1 else 0)
  else (r.score - minScore results) / (maxScore results - minScore results)

/-- `normalizeScores` from the fusion module: min-max normalize one
modality's scores into an id-keyed map. -/
def normalizeScores (results : List SearchResult) : List (String × ℚ) :=
  if results = [] then []
  else results.foldl (fun m r => mapSet m r.id (nsValue results r)) []

/-- The normalized score the fusion combiner reads for an id
(`norm.get(id) ?? 0`). -/
def normValue (results : List SearchResult) (id : String) : ℚ :=
  (mapGet (normalizeScores results) id).getD 0

/-- `computeConfidence`: mean of the top-K normalized scores. -/
def computeConfidence (normalizedScores : List (String × ℚ)) (topK : ℕ) : ℚ :=
  if normalizedScores = [] then 0
  else
    let sorted := sortLe (fun a b => b ≤ a) (mapValues normalizedScores)
    let k := min topK sorted.length
    if k = 0 then 0
    else ((sorted.take k).foldl (fun acc value => acc + value) 0) / (k : ℚ)

/-- `softmax`, numerically stabilized by subtracting the max; `Math.exp` is
the parameter `expF`. -/
def softmax (expF : ℚ → ℚ) (values : List ℚ) : List ℚ :=
  match values with
  | [] => []
  | v :: vs =>
    let maxV := vs.foldl max v
    let expValues := (v :: vs).map (fun value => expF (value - maxV))
    let sum := expValues.foldl (fun acc value => acc + value) 0
    if sum = 0 then (v :: vs).map (fun _ => 1 / ((v :: vs).length : ℚ))
    else expValues.map (fun value => value / sum)

/-- `computeModalityWeights` from the fusion module. -/
def computeModalityWeights (expF : ℚ → ℚ)
    (hasTextResults hasImageResults : Bool)
    (textConfidence imageConfidence : ℚ) : ℚ × ℚ :=
  if !hasTextResults && !hasImageResults then (1/2, 1/2)
  else if !hasTextResults then (0, 1)
  else if !hasImageResults then (1, 0)
  else
    let weights := softmax expF [textConfidence, imageConfidence]
    (weights.getD 0 0, weights.getD 1 0)

/-- The text-modality pass of `fuseModalityResults`: seed the combined map
with `weight_text × normalizedScore`. -/
def fuseTextStep (textNorm : List (String × ℚ)) (textWeight : ℚ)
    (m : List (String × (SearchResult × ℚ))) (r : SearchResult) :
    List (String × (SearchResult × ℚ)) :=
  let normalized := (mapGet textNorm r.id).getD 0
  let fusedScore := textWeight * normalized
  mapSet m r.id (⟨r.id, fusedScore, r.metadata⟩, fusedScore)

/-- The image-modality pass of `fuseModalityResults`: add
`weight_image × normalizedScore`, summing with an existing entry. -/
def fuseImageStep (imageNorm : List (String × ℚ)) (imageWeight : ℚ)
    (m : List (String × (SearchResult × ℚ))) (r : SearchResult) :
    List (String × (SearchResult × ℚ)) :=
  let normalized := (mapGet imageNorm r.id).getD 0
  let additionalScore := imageWeight * normalized
  match mapGet m r.id with
  | some existing =>
    let fusedScore := existing.2 + additionalScore
    let updatedResult : SearchResult :=
      if existing.1.metadata.modality = some "image" ∧
          r.metadata.modality ≠ some "image"
      then ⟨r.id, fusedScore, r.metadata⟩
      else ⟨existing.1.id, fusedScore, existing.1.metadata⟩
    mapSet m r.id (updatedResult, fusedScore)
  | none => mapSet m r.id (⟨r.id, additionalScore, r.metadata⟩, additionalScore)

/-- The `{ textWeight, imageWeight }` pair computed inside
`fuseModalityResults`:
`computeModalityWeights(textResults.length > 0, imageResults.length > 0,
textConfidence, imageConfidence)` with the two confidences taken over the
normalized score maps (top-5). -/
def fusionWeights (expF : ℚ → ℚ)
    (textResults imageResults : List SearchResult) : ℚ × ℚ :=
  computeModalityWeights expF
    (decide (0 < textResults.length)) (decide (0 < imageResults.length))
    (computeConfidence (normalizeScores textResults) 5)
    (computeConfidence (normalizeScores imageResults) 5)

/-- The `combined` map built inside `fuseModalityResults`: the text pass
over an empty map, then the image pass. -/
def fusionCombined (expF : ℚ → ℚ)
    (textResults imageResults : List SearchResult) :
    List (String × (SearchResult × ℚ)) :=
  imageResults.foldl
    (fuseImageStep (normalizeScores imageResults)
      (fusionWeights expF textResults imageResults).2)
    (textResults.foldl
      (fuseTextStep (normalizeScores textResults)
        (fusionWeights expF textResults imageResults).1)
      [])

/-- `fuseModalityResults`: merge two modalities' ranked lists into one list
ordered descending by fused score, truncated to `limit`. -/
def fuseModalityResults (expF : ℚ → ℚ)
    (textResults imageResults : List SearchResult) (limit : ℕ) :
    List SearchResult :=
  if imageResults = [] then textResults.take limit
  else if textResults = [] then imageResults.take limit
  else
    (sortLe (fun a b => b.score ≤ a.score)
      ((mapValues (fusionCombined expF textResults imageResults)).map
        (fun e => (⟨e.1.id, e.2, e.1.metadata⟩ : SearchResult)))).take limit

/-! ## Segmentation pipeline (ingest time) -/

/-- Resolved semantic-chunking options (`ResolvedOptions`). -/
structure ResolvedOptions where
  targetTokens : ℕ
  maxTokens : ℕ
  minTokens : ℕ
  similarityDrop : ℚ
  stdMultiplier : ℚ
  smoothWindow : ℤ
deriving DecidableEq, Repr

/-- `DEFAULT_OPTIONS` from `chunking.ts` (`similarityDrop` 0.25,
the `smoothWindow` radius 2). -/
def DEFAULT_OPTIONS : ResolvedOptions :=
  ⟨1200, 1800, 400, 1/4, 1, 2⟩

/-- A produced chunk `{ text, sentenceCount }` (the final `TextChunk` wraps
the same two fields, with `sentenceCount` under `metadata`). -/
structure SemanticChunk where
  text : List Char
  sentenceCount : ℕ
deriving DecidableEq, Repr

/-- Concatenated non-whitespace content of a chunk list, used to state the
order-preservation property ("concatenating chunk texts ignoring inserted
separators and trimming"). -/
def textsContent (chunks : List SemanticChunk) : List Char :=
  removeWs ((chunks.map (fun c => c.text)).flatten)

/-- `countSentences`: `splitIntoSentences(text).length || 1`. -/
def countSentences (splitter : List Char → List (List Char))
    (text : List Char) : ℕ :=
  if (splitter text).length = 0 then 1 else (splitter text).length

/-- Whether the pattern `pat` occurs in `l` starting at index `i`. -/
def occursAt (pat l : List Char) (i : ℕ) : Bool :=
  pat.isPrefixOf (l.drop i)

/-- JS `String.prototype.lastIndexOf(pat, fromIndex)`: the largest start
index `≤ fromIndex` of an occurrence, or `-1`. -/
def lastIndexOfFrom (pat l : List Char) (fromIndex : ℕ) : ℤ :=
  match ((List.range (fromIndex + 1)).filter (occursAt pat l)).max? with
  | some i => (i : ℤ)
  | none => -1

/-- JS `String.prototype.indexOf(pat, fromIndex)`: the smallest start index
`≥ fromIndex` of an occurrence, or `-1`. -/
def indexOfFrom (pat l : List Char) (fromIndex : ℕ) : ℤ :=
  match ((List.range l.length).filter
      (fun i => fromIndex ≤ i && occursAt pat l i)).min? with
  | some i => (i : ℤ)
  | none => -1

/-- The candidate split indices of `findSplitPoint`, in source order,
already filtered by `index > 0`. -/
def candidatesList (text : List Char) : List ℤ :=
  let midpoint := text.length / 2
  ([lastIndexOfFrom ['\n', '\n'] text midpoint,
    indexOfFrom ['\n', '\n'] text (midpoint + 1),
    lastIndexOfFrom ['.', ' '] text midpoint,
    indexOfFrom ['.', ' '] text (midpoint + 1),
    lastIndexOfFrom ['!', ' '] text midpoint,
    lastIndexOfFrom ['?', ' '] text midpoint]).filter (fun index => 0 < index)

/-- The edge-exclusion test of `findSplitPoint`:
`index < 200 || index > text.length - 200` (evaluated over integers, as in
JS, so every index of a short text is too close to an edge). -/
def tooCloseToEdge (text : List Char) (index : ℤ) : Bool :=
  index < 200 || (text.length : ℤ) - 200 < index

/-- One step of `findSplitPoint`'s best-candidate loop.  The running state
is `(best, bestDistance)`; `bestDistance = none` models the initial
`Number.POSITIVE_INFINITY`, which every distance beats. -/
def splitPointStep (text : List Char) (st : ℤ × Option ℤ) (index : ℤ) :
    ℤ × Option ℤ :=
  let midpoint : ℤ := (text.length / 2 : ℕ)
  let distance := |midpoint - index|
  if !(tooCloseToEdge text index) &&
      (match st.2 with
       | none => true
       | some d => distance < d) then (index + 1, some distance)
  else st

/-- `findSplitPoint` from `chunking.ts`: nearest-to-midpoint valid candidate
(paragraph break or sentence-ending punctuation + space, not within 200
characters of either edge), else the midpoint itself. -/
def findSplitPoint (text : List Char) : ℤ :=
  let best := ((candidatesList text).foldl (splitPointStep text) (-1, none)).1
  if best = -1 then ((text.length / 2 : ℕ) : ℤ) else best

/-- Recursion core of `enforceMaxSize`.  The source recurses on strictly
shorter texts (the split index is strictly inside the text), so the
structural `fuel` bound, consumed once per bisection, never runs out when
started at `text.length`; it only makes the recursion structural so that
the definition evaluates by `decide`/`rfl`. -/
def enforceMaxSizeGo (tokensFor : List Char → ℕ) (maxTokens : ℕ) :
    ℕ → List Char → List (List Char)
  | fuel, text =>
    if tokensFor text ≤ maxTokens then [text]
    else
      match fuel with
      | 0 => [text]
      | f + 1 =>
        let splitIndex := findSplitPoint text
        if splitIndex ≤ 0 ∨ (text.length : ℤ) - 1 ≤ splitIndex then [text]
        else
          let left := jsTrim (text.take splitIndex.toNat)
          let right := jsTrim (text.drop splitIndex.toNat)
          let pieces :=
            (if left ≠ [] then enforceMaxSizeGo tokensFor maxTokens f left
             else []) ++
            (if right ≠ [] then enforceMaxSizeGo tokensFor maxTokens f right
             else [])
          if pieces = [] then [text] else pieces

/-- `enforceMaxSize` from `chunking.ts`: recursively bisect a segment whose
token count exceeds `maxTokens` at `findSplitPoint`, trimming both halves
and dropping empty ones; a segment the guard rejects is returned unchanged. -/
def enforceMaxSize (tokensFor : List Char → ℕ) (maxTokens : ℕ)
    (text : List Char) : List (List Char) :=
  enforceMaxSizeGo tokensFor maxTokens text.length text

/-- Accumulation state of `mergeSegments`' greedy loop: the finished chunks,
the `current` buffer, and its `sentenceTally`. -/
structure MergeState where
  chunks : List SemanticChunk
  current : List Char
  tally : ℕ
deriving DecidableEq, Repr

/-- Concatenated non-whitespace content of an accumulation state: the
finished chunks followed by the pending buffer. -/
def stateContent (st : MergeState) : List Char :=
  textsContent st.chunks ++ removeWs st.current

/-- The final flush of `mergeSegments` (also the flush performed inside the
loop when appending would overflow, which pushes `current` exactly when it
is not blank): push the remaining buffer as a chunk when it is not blank. -/
def finalFlush (st : MergeState) : List SemanticChunk :=
  if jsTrim st.current ≠ [] then st.chunks ++ [⟨st.current, st.tally⟩]
  else st.chunks

/-- The `candidate` string of `mergeSegments`' inner loop:
`current ? current + "\n\n" + part : part`. -/
def mergeCandidate (current part : List Char) : List Char :=
  if current = [] then part else current ++ ['\n', '\n'] ++ part

/-- Process one piece (`part`) inside `mergeSegments`' inner loop: flush the
buffer when appending would exceed `maxTokens`, else append, flushing when
`targetTokens` is reached. -/
def mergePart (tokensFor : List Char → ℕ)
    (splitter : List Char → List (List Char)) (opts : ResolvedOptions)
    (st : MergeState) (part : List Char) : MergeState :=
  if opts.maxTokens < tokensFor (mergeCandidate st.current part) ∧
      st.current ≠ [] then
    ⟨finalFlush st, part, countSentences splitter part⟩
  else if opts.targetTokens ≤ tokensFor (mergeCandidate st.current part) then
    ⟨st.chunks ++ [⟨mergeCandidate st.current part,
      st.tally + countSentences splitter part⟩], [], 0⟩
  else
    ⟨st.chunks, mergeCandidate st.current part,
      st.tally + countSentences splitter part⟩

/-- Process one segment inside `mergeSegments`: skip blank segments, split
oversized ones with `enforceMaxSize`, then accumulate the pieces. -/
def mergeSegment (tokensFor : List Char → ℕ)
    (splitter : List Char → List (List Char)) (opts : ResolvedOptions)
    (st : MergeState) (segment : List Char) : MergeState :=
  let trimmed := jsTrim segment
  if trimmed = [] then st
  else (enforceMaxSize tokensFor opts.maxTokens trimmed).foldl
    (mergePart tokensFor splitter opts) st

/-- One iteration of `normalizeSmallChunks`' scan: merge a chunk below
`minTokens` into the last finished chunk when the merged pair stays within
`maxTokens`, else push it unchanged. -/
def normalizeStep (opts : ResolvedOptions) (tokensFor : List Char → ℕ)
    (normalized : List SemanticChunk) (chunk : SemanticChunk) :
    List SemanticChunk :=
  if tokensFor chunk.text < opts.minTokens ∧ normalized ≠ [] then
    match normalized.getLast? with
    | some previous =>
      if tokensFor (previous.text ++ ['\n', '\n'] ++ chunk.text) ≤
          opts.maxTokens then
        normalized.dropLast ++
          [⟨previous.text ++ ['\n', '\n'] ++ chunk.text,
            previous.sentenceCount + chunk.sentenceCount⟩]
      else normalized ++ [chunk]
    | none => normalized ++ [chunk]
  else normalized ++ [chunk]

/-- `normalizeSmallChunks` from `chunking.ts`: merge each chunk below
`minTokens` into its predecessor when the merged pair stays within
`maxTokens`. -/
def normalizeSmallChunks (chunks : List SemanticChunk)
    (opts : ResolvedOptions) (tokensFor : List Char → ℕ) :
    List SemanticChunk :=
  if chunks.length ≤ 1 then chunks
  else chunks.foldl (normalizeStep opts tokensFor) []

/-- `mergeSegments` from `chunking.ts`: greedy accumulation of the
(`enforceMaxSize`-split) segments into token-bounded chunks, followed by the
small-chunk tail merge.  The memoizing token cache is a pure function here. -/
def mergeSegments (tokensFor : List Char → ℕ)
    (splitter : List Char → List (List Char)) (opts : ResolvedOptions)
    (segments : List (List Char)) : List SemanticChunk :=
  if segments = [] then []
  else
    normalizeSmallChunks
      (finalFlush (segments.foldl (mergeSegment tokensFor splitter opts)
        ⟨[], [], 0⟩))
      opts tokensFor

/-- Slicing loop of `buildSegments`: emit the trimmed, space-joined slice
between the running `start` and each valid breakpoint, then the tail. -/
def buildSegmentsGo (sentences : List (List Char)) :
    ℕ → List ℕ → List (List Char)
  | start, [] =>
    if jsTrim (joinSp (sentences.drop start)) = [] then []
    else [jsTrim (joinSp (sentences.drop start))]
  | start, bp :: rest =>
    if bp ≤ start ∨ sentences.length ≤ bp then
      buildSegmentsGo sentences start rest
    else
      (if jsTrim (joinSp ((sentences.drop start).take (bp - start))) = []
        then []
        else [jsTrim (joinSp ((sentences.drop start).take (bp - start)))]) ++
      buildSegmentsGo sentences bp rest

/-- `buildSegments` from `chunking.ts`: no breakpoints give one whole-text
segment; otherwise slice at the deduplicated, ascending breakpoints
(`Array.from(new Set(breakPoints)).sort((a, b) => a - b)`). -/
def buildSegments (sentences : List (List Char)) (breakPoints : List ℕ) :
    List (List Char) :=
  if breakPoints = [] then [jsTrim (joinSp sentences)]
  else buildSegmentsGo sentences 0
    (sortLe (fun a b => a ≤ b) breakPoints.eraseDups)

/-- `smooth` from `chunking.ts`: symmetric moving average of radius
`windowRadius`, clipped at the edges. -/
def smooth (values : List ℚ) (windowRadius : ℤ) : List ℚ :=
  if values = [] ∨ windowRadius ≤ 0 then values
  else
    (List.range values.length).map (fun index =>
      let start := (max 0 ((index : ℤ) - windowRadius)).toNat
      let stop := (min ((values.length : ℤ) - 1)
        ((index : ℤ) + windowRadius)).toNat
      let slice := (values.drop start).take (stop + 1 - start)
      (slice.foldl (fun acc value => acc + value) 0) / (slice.length : ℚ))

/-- One iteration of `detectBreakPoints`' scan at position `i`.  The state
is `(lastBreak, breakPoints)`. -/
def breakPointStep (smoothed : List ℚ) (mean threshold : ℚ)
    (similarityDrop : ℚ) (sentenceCount : ℕ) (st : ℕ × List ℕ) (i : ℕ) :
    ℕ × List ℕ :=
  let current := smoothed.getD i 0
  let previous := if 0 < i then smoothed.getD (i - 1) 0 else mean
  let drop := previous - current
  let shouldBreak :=
    (similarityDrop < drop ∧ current < previous) ∨ current < threshold
  let enoughSentences := (2 : ℤ) ≤ (i : ℤ) + 1 - (st.1 : ℤ)
  let notTooCloseToEnd := (i : ℤ) + 1 < (sentenceCount : ℤ) - 1
  if shouldBreak ∧ enoughSentences ∧ notTooCloseToEnd then
    (i + 1, st.2 ++ [i + 1])
  else st

/-- `detectBreakPoints` from `chunking.ts`: mark topic shifts where the
smoothed similarity drops sharply or falls below the dynamic threshold,
spaced by at least 2 sentences and leaving at least 2 trailing sentences.
`Math.sqrt` is the parameter `sqrtF`. -/
def detectBreakPoints (sqrtF : ℚ → ℚ) (similarities : List ℚ)
    (sentenceCount : ℕ) (opts : ResolvedOptions) : List ℕ :=
  if similarities = [] then []
  else
    let smoothed := smooth similarities opts.smoothWindow
    let mean := (smoothed.foldl (fun acc s => acc + s) 0) /
      (smoothed.length : ℚ)
    let variance := (smoothed.foldl (fun acc s => acc + (s - mean)^2) 0) /
      (smoothed.length : ℚ)
    let std := sqrtF (max variance 0)
    let dynamicThreshold := if 0 < std then mean - opts.stdMultiplier * std
      else mean - 1/20
    let threshold := max (-1) (min dynamicThreshold mean)
    ((List.range similarities.length).foldl
      (breakPointStep smoothed mean threshold opts.similarityDrop
        sentenceCount)
      (0, [])).2

/-- `cosineSimilarity` from `chunking.ts` (`Math.sqrt` is `sqrtF`). -/
def cosineSimilarity (sqrtF : ℚ → ℚ) (a b : List ℚ) : ℚ :=
  let dot := ((a.zip b).foldl (fun acc p => acc + p.1 * p.2) 0)
  let normA := (a.foldl (fun acc x => acc + x * x) 0)
  let normB := (b.foldl (fun acc x => acc + x * x) 0)
  if normA = 0 ∨ normB = 0 then 0
  else dot / (sqrtF normA * sqrtF normB)

/-- `computePairwiseSimilarities`: cosine similarity of each consecutive
pair of sentence embeddings. -/
def computePairwiseSimilarities (sqrtF : ℚ → ℚ) (embeddings : List (List ℚ)) :
    List ℚ :=
  (List.range (embeddings.length - 1)).map (fun i =>
    cosineSimilarity sqrtF (embeddings.getD i []) (embeddings.getD (i + 1) []))

/-- `chunkDocumentSemantic` from `chunking.ts`: normalize, split into
sentences, embed, detect breakpoints, build segments, and size-normalize.
The final `.map` wraps each chunk's `sentenceCount` under `metadata`,
carrying exactly the two fields of `SemanticChunk`. -/
def chunkDocumentSemantic (splitter : List Char → List (List Char))
    (embedder : List (List Char) → List (List ℚ))
    (tokensFor : List Char → ℕ) (sqrtF : ℚ → ℚ)
    (content : List Char) (opts : ResolvedOptions) : List SemanticChunk :=
  let normalized := normalizeContent content
  if normalized = [] then []
  else
    let sentences := splitter normalized
    if sentences.length ≤ 1 then
      [⟨normalized, if sentences.length = 0 then 1 else sentences.length⟩]
    else
      let embeddings := embedder sentences
      let similarities := computePairwiseSimilarities sqrtF embeddings
      let breakPoints := detectBreakPoints sqrtF similarities sentences.length
        opts
      let segments := buildSegments sentences breakPoints
      mergeSegments tokensFor splitter opts segments

/-! ## Generic lemmas: the sort model and the map model -/

theorem insertLe_perm {α : Type} (le : α → α → Bool) (x : α) :
    ∀ l : List α, (insertLe le x l).Perm (x :: l) := by
  intro l
  induction l with
  | nil => simp [insertLe]
  | cons y ys ih =>
    by_cases h : le y x
    · simpa [insertLe, h] using (ih.cons y).trans (List.Perm.swap x y ys)
    · simp [insertLe, h]

theorem sortLe_perm {α : Type} (le : α → α → Bool) (l : List α) :
    (sortLe le l).Perm l := by
  induction l with
  | nil => simp [sortLe]
  | cons x xs ih => exact (insertLe_perm le x (sortLe le xs)).trans (ih.cons x)

theorem insertLe_pairwise {α : Type} (le : α → α → Bool)
    (htot : ∀ a b, le a b = true ∨ le b a = true)
    (htrans : ∀ a b c, le a b = true → le b c = true → le a c = true)
    (x : α) :
    ∀ l : List α, l.Pairwise (fun a b => le a b = true) →
      (insertLe le x l).Pairwise (fun a b => le a b = true) := by
  intro l
  induction l with
  | nil => simp [insertLe]
  | cons y ys ih =>
    intro h
    rw [List.pairwise_cons] at h
    by_cases hyx : le y x
    · rw [insertLe, if_pos hyx, List.pairwise_cons]
      refine ⟨?_, ih h.2⟩
      intro z hz
      rcases List.mem_cons.1 (((insertLe_perm le x ys).mem_iff).1 hz) with rfl | hzys
      · exact hyx
      · exact h.1 z hzys
    · rw [insertLe, if_neg hyx, List.pairwise_cons]
      have hxy : le x y = true := by
        rcases htot x y with h1 | h1
        · exact h1
        · exact absurd h1 hyx
      refine ⟨?_, List.pairwise_cons.2 h⟩
      intro z hz
      rcases List.mem_cons.1 hz with rfl | hzys
      · exact hxy
      · exact htrans x y z hxy (h.1 z hzys)

theorem sortLe_pairwise {α : Type} (le : α → α → Bool)
    (htot : ∀ a b, le a b = true ∨ le b a = true)
    (htrans : ∀ a b c, le a b = true → le b c = true → le a c = true)
    (l : List α) :
    (sortLe le l).Pairwise (fun a b => le a b = true) := by
  induction l with
  | nil => simp [sortLe]
  | cons x xs ih => exact insertLe_pairwise le htot htrans x (sortLe le xs) ih

theorem mapGet_set_self {α : Type} (m : List (String × α)) (k : String)
    (v : α) : mapGet (mapSet m k v) k = some v := by
  induction m with
  | nil => simp [mapSet, mapGet]
  | cons p m ih =>
    by_cases h : p.1 == k
    · simp [mapSet, mapGet, h]
    · simp [mapSet, mapGet, h, ih]

theorem mapGet_set_ne {α : Type} (m : List (String × α)) (k k' : String)
    (v : α) (h : k' ≠ k) : mapGet (mapSet m k v) k' = mapGet m k' := by
  have hk : (k == k') = false := by
    simp only [beq_eq_false_iff_ne, ne_eq]
    exact fun hkk => h hkk.symm
  induction m with
  | nil => simp [mapSet, mapGet, hk]
  | cons p m ih =>
    by_cases hp : p.1 == k
    · have hp1 : p.1 = k := by simpa using hp
      simp [mapSet, mapGet, hp, hk, hp1]
    · simp [mapSet, mapGet, hp, ih]

theorem mapGet_eq_some_mem {α : Type} {m : List (String × α)} {k : String}
    {v : α} (h : mapGet m k = some v) : (k, v) ∈ m := by
  induction m with
  | nil => simp [mapGet] at h
  | cons p m ih =>
    by_cases hp : p.1 == k
    · have hp1 : p.1 = k := by simpa using hp
      rw [mapGet, if_pos hp] at h
      have hv : p.2 = v := by simpa using h
      rw [← hp1, ← hv]
      exact List.mem_cons_self p m
    · rw [mapGet, if_neg (by simpa using hp)] at h
      exact List.mem_cons_of_mem p (ih h)

theorem mem_mapSet {α : Type} {p : String × α} :
    ∀ {m : List (String × α)} {k : String} {v : α},
      p ∈ mapSet m k v → p = (k, v) ∨ p ∈ m := by
  intro m
  induction m with
  | nil => intro k v h; simpa [mapSet] using h
  | cons q m ih =>
    intro k v h
    by_cases hq : q.1 == k
    · rw [mapSet, if_pos hq] at h
      rcases List.mem_cons.1 h with h1 | h1
      · exact Or.inl h1
      · exact Or.inr (List.mem_cons_of_mem q h1)
    · rw [mapSet, if_neg hq] at h
      rcases List.mem_cons.1 h with h1 | h1
      · exact Or.inr (h1 ▸ List.mem_cons_self q m)
      · rcases ih h1 with h2 | h2
        · exact Or.inl h2
        · exact Or.inr (List.mem_cons_of_mem q h2)

theorem mem_keys_mapSet {α : Type} {a : String} :
    ∀ {m : List (String × α)} {k : String} {v : α},
      a ∈ (mapSet m k v).map Prod.fst → a = k ∨ a ∈ m.map Prod.fst := by
  intro m k v h
  rcases List.mem_map.1 h with ⟨p, hp, rfl⟩
  rcases mem_mapSet hp with rfl | hpm
  · exact Or.inl rfl
  · exact Or.inr (List.mem_map_of_mem Prod.fst hpm)

theorem keys_mapSet_nodup {α : Type} :
    ∀ (m : List (String × α)) (k : String) (v : α),
      (m.map Prod.fst).Nodup → ((mapSet m k v).map Prod.fst).Nodup := by
  intro m
  induction m with
  | nil => intro k v _; simp [mapSet]
  | cons p m ih =>
    intro k v h
    rw [List.map_cons, List.nodup_cons] at h
    by_cases hp : p.1 == k
    · have hp1 : p.1 = k := by simpa using hp
      rw [mapSet, if_pos hp, List.map_cons, List.nodup_cons]
      exact ⟨hp1 ▸ h.1, h.2⟩
    · have hp1 : p.1 ≠ k := by simpa using hp
      rw [mapSet, if_neg hp, List.map_cons, List.nodup_cons]
      refine ⟨?_, ih k v h.2⟩
      intro hmem
      rcases mem_keys_mapSet hmem with h1 | h1
      · exact hp1 h1
      · exact h.1 h1

theorem mapGet_of_mem_keysNodup {α : Type} :
    ∀ {m : List (String × α)} {p : String × α},
      (m.map Prod.fst).Nodup → p ∈ m → mapGet m p.1 = some p.2 := by
  intro m
  induction m with
  | nil => intro p _ h; simp at h
  | cons q m ih =>
    intro p hnd hp
    rw [List.map_cons, List.nodup_cons] at hnd
    rcases List.mem_cons.1 hp with rfl | hpm
    · simp [mapGet]
    · have hne : ¬(q.1 == p.1) = true := by
        simp only [beq_iff_eq]
        intro hq
        exact hnd.1 (hq ▸ List.mem_map_of_mem Prod.fst hpm)
      rw [mapGet, if_neg hne]
      exact ih hnd.2 hpm

/-! ## Fusion lemmas -/

theorem foldl_mapSet_get {α : Type} (f : SearchResult → α)
    (g : List (String × α) → SearchResult → List (String × α))
    (hg : ∀ m r, g m r = mapSet m r.id (f r)) :
    ∀ (rs : List SearchResult) (m : List (String × α)) (id : String),
      (∃ r, r ∈ rs ∧ r.id = id ∧ mapGet (rs.foldl g m) id = some (f r))
      ∨ (id ∉ resultIds rs ∧ mapGet (rs.foldl g m) id = mapGet m id) := by
  intro rs
  induction rs with
  | nil => intro m id; exact Or.inr (by simp [resultIds])
  | cons r rest ih =>
    intro m id
    simp only [List.foldl_cons]
    rcases ih (g m r) id with ⟨r1, hr1, hid, hget⟩ | ⟨hnot, hget⟩
    · exact Or.inl ⟨r1, List.mem_cons_of_mem r hr1, hid, hget⟩
    · by_cases hid : r.id = id
      · refine Or.inl ⟨r, List.mem_cons_self r rest, hid, ?_⟩
        rw [hget, hg, hid, mapGet_set_self]
      · refine Or.inr ⟨?_, ?_⟩
        · simp only [resultIds, List.map_cons, List.mem_cons]
          rintro (h1 | h1)
          · exact hid h1.symm
          · exact hnot (by simpa [resultIds] using h1)
        · rw [hget, hg, mapGet_set_ne _ _ _ _ (fun h => hid h.symm)]

theorem fuseTextStep_entryInv {tn : List (String × ℚ)} {tw : ℚ}
    {m : List (String × (SearchResult × ℚ))} {r : SearchResult}
    (h : ∀ p ∈ m, p.2.1.id = p.1) :
    ∀ p ∈ fuseTextStep tn tw m r, p.2.1.id = p.1 := by
  intro p hp
  rcases mem_mapSet hp with rfl | hpm
  · rfl
  · exact h p hpm

theorem fuseImageStep_entryInv {imN : List (String × ℚ)} {iw : ℚ}
    {m : List (String × (SearchResult × ℚ))} {r : SearchResult}
    (h : ∀ p ∈ m, p.2.1.id = p.1) :
    ∀ p ∈ fuseImageStep imN iw m r, p.2.1.id = p.1 := by
  intro p hp
  rw [fuseImageStep] at hp
  rcases hget : mapGet m r.id with _ | e
  · rw [hget] at hp
    rcases mem_mapSet hp with rfl | hpm
    · rfl
    · exact h p hpm
  · rw [hget] at hp
    simp only at hp
    rcases mem_mapSet hp with rfl | hpm
    · by_cases hmod : e.1.metadata.modality = some "image" ∧
        r.metadata.modality ≠ some "image"
      · simp only [if_pos hmod]
      · have he : e.1.id = r.id := h (r.id, e) (mapGet_eq_some_mem hget)
        simp only [if_neg hmod]
        exact he
    · exact h p hpm

theorem foldl_fuseTextStep_entryInv (tn : List (String × ℚ)) (tw : ℚ) :
    ∀ (rs : List SearchResult) (m : List (String × (SearchResult × ℚ))),
      (∀ p ∈ m, p.2.1.id = p.1) →
      ∀ p ∈ rs.foldl (fuseTextStep tn tw) m, p.2.1.id = p.1 := by
  intro rs
  induction rs with
  | nil => intro m h; simpa using h
  | cons r rest ih =>
    intro m h
    simp only [List.foldl_cons]
    exact ih (fuseTextStep tn tw m r) (fuseTextStep_entryInv h)

theorem foldl_fuseImageStep_entryInv (imN : List (String × ℚ)) (iw : ℚ) :
    ∀ (rs : List SearchResult) (m : List (String × (SearchResult × ℚ))),
      (∀ p ∈ m, p.2.1.id = p.1) →
      ∀ p ∈ rs.foldl (fuseImageStep imN iw) m, p.2.1.id = p.1 := by
  intro rs
  induction rs with
  | nil => intro m h; simpa using h
  | cons r rest ih =>
    intro m h
    simp only [List.foldl_cons]
    exact ih (fuseImageStep imN iw m r) (fuseImageStep_entryInv h)

theorem foldl_fuseTextStep_keysNodup (tn : List (String × ℚ)) (tw : ℚ) :
    ∀ (rs : List SearchResult) (m : List (String × (SearchResult × ℚ))),
      (m.map Prod.fst).Nodup →
      ((rs.foldl (fuseTextStep tn tw) m).map Prod.fst).Nodup := by
  intro rs
  induction rs with
  | nil => intro m h; simpa using h
  | cons r rest ih =>
    intro m h
    simp only [List.foldl_cons]
    exact ih _ (keys_mapSet_nodup m _ _ h)

theorem foldl_fuseImageStep_keysNodup (imN : List (String × ℚ)) (iw : ℚ) :
    ∀ (rs : List SearchResult) (m : List (String × (SearchResult × ℚ))),
      (m.map Prod.fst).Nodup →
      ((rs.foldl (fuseImageStep imN iw) m).map Prod.fst).Nodup := by
  intro rs
  induction rs with
  | nil => intro m h; simpa using h
  | cons r rest ih =>
    intro m h
    simp only [List.foldl_cons]
    refine ih _ ?_
    rw [fuseImageStep]
    rcases hget : mapGet m r.id with _ | e
    · exact keys_mapSet_nodup m _ _ h
    · simp only
      exact keys_mapSet_nodup m _ _ h

theorem foldl_fuseImageStep_get (imN : List (String × ℚ)) (iw : ℚ) :
    ∀ (rs : List SearchResult) (m : List (String × (SearchResult × ℚ)))
      (k : String), (resultIds rs).Nodup →
      (k ∈ resultIds rs ∧
        ∃ v, mapGet (rs.foldl (fuseImageStep imN iw) m) k = some v ∧
          ((∃ e, mapGet m k = some e ∧
              v.2 = e.2 + iw * (mapGet imN k).getD 0)
           ∨ (mapGet m k = none ∧ v.2 = iw * (mapGet imN k).getD 0)))
      ∨ (k ∉ resultIds rs ∧
          mapGet (rs.foldl (fuseImageStep imN iw) m) k = mapGet m k) := by
  intro rs
  induction rs with
  | nil => intro m k _; exact Or.inr (by simp [resultIds])
  | cons r rest ih =>
    intro m k hnd
    have hnd2 : (resultIds rest).Nodup ∧ r.id ∉ resultIds rest := by
      rw [resultIds, List.map_cons, List.nodup_cons] at hnd
      exact ⟨hnd.2, hnd.1⟩
    simp only [List.foldl_cons]
    by_cases hid : k = r.id
    · subst hid
      rcases ih (fuseImageStep imN iw m r) r.id hnd2.1 with
        ⟨hmem, _⟩ | ⟨_, hget⟩
      · exact absurd hmem hnd2.2
      · refine Or.inl ⟨List.mem_cons_self _ _, ?_⟩
        rw [hget, fuseImageStep]
        rcases hm : mapGet m r.id with _ | e
        · refine ⟨_, mapGet_set_self _ _ _, Or.inr ⟨rfl, rfl⟩⟩
        · simp only
          exact ⟨_, mapGet_set_self _ _ _, Or.inl ⟨e, rfl, rfl⟩⟩
    · rcases ih (fuseImageStep imN iw m r) k hnd2.1 with
        ⟨hmem, v, hget, hv⟩ | ⟨hnot, hget⟩
      · have hstep : mapGet (fuseImageStep imN iw m r) k = mapGet m k := by
          rw [fuseImageStep]
          rcases mapGet m r.id with _ | e
          · exact mapGet_set_ne _ _ _ _ hid
          · simp only
            exact mapGet_set_ne _ _ _ _ hid
        rw [hstep] at hv
        exact Or.inl ⟨List.mem_cons_of_mem _ hmem, v, hget, hv⟩
      · have hstep : mapGet (fuseImageStep imN iw m r) k = mapGet m k := by
          rw [fuseImageStep]
          rcases mapGet m r.id with _ | e
          · exact mapGet_set_ne _ _ _ _ hid
          · simp only
            exact mapGet_set_ne _ _ _ _ hid
        refine Or.inr ⟨?_, by rw [hget, hstep]⟩
        simp only [resultIds, List.map_cons, List.mem_cons]
        rintro (h1 | h1)
        · exact hid h1
        · exact hnot (by simpa [resultIds] using h1)

/-! ## Claim C4 -/

/-- C4: for every pair of confidences of two non-empty modalities,
`computeModalityWeights` returns the max-stabilized softmax of `[ca, cb]`
(uniform weights when the exponential sum is 0), and the two returned
weights sum to exactly 1 (the idealized form of the floating-point
tolerance), for every exponential function `expF`. -/
theorem c4_modality_weights_softmax_sum_one (expF : ℚ → ℚ) (ca cb : ℚ) :
    computeModalityWeights expF true true ca cb =
      ((softmax expF [ca, cb]).getD 0 0, (softmax expF [ca, cb]).getD 1 0)
    ∧ (computeModalityWeights expF true true ca cb).1 +
        (computeModalityWeights expF true true ca cb).2 = 1 := by
  have h1 : computeModalityWeights expF true true ca cb =
      ((softmax expF [ca, cb]).getD 0 0, (softmax expF [ca, cb]).getD 1 0) := by
    simp [computeModalityWeights]
  refine ⟨h1, ?_⟩
  rw [h1]
  simp only [softmax, List.foldl_cons, List.foldl_nil, List.map_cons,
    List.map_nil, List.length_cons, List.length_nil]
  by_cases hs : 0 + expF (ca - max ca cb) + expF (cb - max ca cb) = 0
  · rw [if_pos hs]
    norm_num
  · rw [if_neg hs]
    simp only [List.getD_cons_zero, List.getD_cons_succ]
    rw [div_add_div_same, zero_add]
    exact div_self (fun hzero => hs (by rw [zero_add, hzero]))

/-! ## Claim C5 -/

/-- C5: for every non-empty result list with distinct ids, `normalizeScores`
maps each score to `(score - min) / (max - min)` when `max ≠ min`, and when
`max = min` maps every score to 1 if `max ≠ 0` and to 0 if `max = 0`. -/
theorem c5_normalizeScores_minmax (results : List SearchResult)
    (h : results ≠ []) (hnd : (resultIds results).Nodup) :
    ∀ r ∈ results,
      mapGet (normalizeScores results) r.id =
        some (if maxScore results = minScore results
          then (if maxScore results ≠ 0 then 1 else 0)
          else (r.score - minScore results) /
            (maxScore results - minScore results)) := by
  intro r hr
  have hget := foldl_mapSet_get (nsValue results)
    (fun m r0 => mapSet m r0.id (nsValue results r0)) (fun _ _ => rfl)
    results [] r.id
  rcases hget with ⟨r1, hr1, hid, hval⟩ | ⟨hnot, _⟩
  · have hr1r : r1 = r := by
      have := List.inj_on_of_nodup_map (f := fun r => r.id)
        (by simpa [resultIds] using hnd) hr1 hr hid
      exact this
    rw [normalizeScores, if_neg h, hval, hr1r]
    congr 1
    rw [nsValue]
    by_cases hd : maxScore results - minScore results = 0
    · rw [if_pos hd, if_pos (sub_eq_zero.1 hd)]
    · rw [if_neg hd, if_neg (fun he => hd (sub_eq_zero.2 he))]
  · exact absurd (List.mem_map_of_mem (fun r => r.id) hr) hnot

/-- Witness for C5, covering the two spec scenarios: a flat nonzero
distribution `[10, 10, 10]` normalizes to all-1, and an all-zero
distribution `[0, 0, 0]` normalizes to all-0. -/
theorem c5_normalizeScores_minmax_witness :
    mapGet (normalizeScores
      [⟨"a", 10, ⟨none, none⟩⟩, ⟨"b", 10, ⟨none, none⟩⟩,
       ⟨"c", 10, ⟨none, none⟩⟩]) "b" = some 1
    ∧ mapGet (normalizeScores
      [⟨"a", 0, ⟨none, none⟩⟩, ⟨"b", 0, ⟨none, none⟩⟩,
       ⟨"c", 0, ⟨none, none⟩⟩]) "b" = some 0 := by
  constructor
  · have := c5_normalizeScores_minmax
      [⟨"a", 10, ⟨none, none⟩⟩, ⟨"b", 10, ⟨none, none⟩⟩,
       ⟨"c", 10, ⟨none, none⟩⟩] (by decide) (by decide)
      ⟨"b", 10, ⟨none, none⟩⟩ (by decide)
    simpa using this
  · have := c5_normalizeScores_minmax
      [⟨"a", 0, ⟨none, none⟩⟩, ⟨"b", 0, ⟨none, none⟩⟩,
       ⟨"c", 0, ⟨none, none⟩⟩] (by decide) (by decide)
      ⟨"b", 0, ⟨none, none⟩⟩ (by decide)
    simpa using this

/-! ## Claims C9 and C3 -/

theorem fusionCombined_entryInv (expF : ℚ → ℚ)
    (t i : List SearchResult) :
    ∀ p ∈ fusionCombined expF t i, p.2.1.id = p.1 := by
  rw [fusionCombined]
  exact foldl_fuseImageStep_entryInv _ _ i _
    (foldl_fuseTextStep_entryInv _ _ t [] (by simp))

theorem fusionCombined_keysNodup (expF : ℚ → ℚ)
    (t i : List SearchResult) :
    ((fusionCombined expF t i).map Prod.fst).Nodup := by
  rw [fusionCombined]
  exact foldl_fuseImageStep_keysNodup _ _ i _
    (foldl_fuseTextStep_keysNodup _ _ t [] (by simp))

theorem scoreDesc_total (a b : SearchResult) :
    decide (b.score ≤ a.score) = true ∨ decide (a.score ≤ b.score) = true := by
  rcases le_total b.score a.score with h | h
  · exact Or.inl (decide_eq_true h)
  · exact Or.inr (decide_eq_true h)

theorem scoreDesc_trans (a b c : SearchResult)
    (hab : decide (b.score ≤ a.score) = true)
    (hbc : decide (c.score ≤ b.score) = true) :
    decide (c.score ≤ a.score) = true :=
  decide_eq_true (le_trans (of_decide_eq_true hbc) (of_decide_eq_true hab))

/-- C9 (amended): the fused output always has length at most the limit, and
when both modalities are non-empty it is additionally sorted descending by
score and contains each id at most once.  (When one input list is empty the
other is returned truncated but otherwise unmodified, so its order and
duplicate ids pass through: see the counterexample.) -/
theorem c9_fusion_output_contract (expF : ℚ → ℚ)
    (textResults imageResults : List SearchResult) (limit : ℕ) :
    (fuseModalityResults expF textResults imageResults limit).length ≤ limit
    ∧ (textResults ≠ [] → imageResults ≠ [] →
        (fuseModalityResults expF textResults imageResults limit).Pairwise
          (fun a b => b.score ≤ a.score)
        ∧ (resultIds (fuseModalityResults expF textResults imageResults
            limit)).Nodup) := by
  constructor
  · by_cases hi : imageResults = []
    · rw [fuseModalityResults, if_pos hi]
      exact List.length_take_le _ _
    · by_cases ht : textResults = []
      · rw [fuseModalityResults, if_neg hi, if_pos ht]
        exact List.length_take_le _ _
      · rw [fuseModalityResults, if_neg hi, if_neg ht]
        exact List.length_take_le _ _
  · intro ht hi
    rw [fuseModalityResults, if_neg hi, if_neg ht]
    constructor
    · have hpair := sortLe_pairwise (fun a b => decide (b.score ≤ a.score))
        scoreDesc_total scoreDesc_trans
        ((mapValues (fusionCombined expF textResults imageResults)).map
          (fun e => (⟨e.1.id, e.2, e.1.metadata⟩ : SearchResult)))
      exact List.Pairwise.sublist (List.take_sublist _ _)
        (hpair.imp (fun h => of_decide_eq_true h))
    · have hids : resultIds
          ((mapValues (fusionCombined expF textResults imageResults)).map
            (fun e => (⟨e.1.id, e.2, e.1.metadata⟩ : SearchResult))) =
          (fusionCombined expF textResults imageResults).map Prod.fst := by
        rw [resultIds, List.map_map, mapValues, List.map_map]
        exact List.map_congr_left
          (fun p hp => fusionCombined_entryInv expF textResults imageResults
            p hp)
      have hnodup : (resultIds (sortLe (fun a b => decide (b.score ≤ a.score))
          ((mapValues (fusionCombined expF textResults imageResults)).map
            (fun e => (⟨e.1.id, e.2, e.1.metadata⟩ : SearchResult))))).Nodup := by
        rw [resultIds]
        refine (List.Perm.nodup_iff
          ((sortLe_perm _ _).map (fun r : SearchResult => r.id))).2 ?_
        rw [show (List.map (fun r : SearchResult => r.id)
            ((mapValues (fusionCombined expF textResults imageResults)).map
              (fun e => (⟨e.1.id, e.2, e.1.metadata⟩ : SearchResult)))) =
            resultIds ((mapValues (fusionCombined expF textResults
              imageResults)).map
              (fun e => (⟨e.1.id, e.2, e.1.metadata⟩ : SearchResult)))
          from rfl, hids]
        exact fusionCombined_keysNodup expF textResults imageResults
      rw [resultIds, List.map_take]
      exact List.Nodup.sublist (List.take_sublist _ _) hnodup

/-- Counterexample for C9 as frozen: with an empty image list the text list
is passed through truncated, so an unsorted (or duplicated-id) text list
yields an output that is not sorted descending by score. -/
theorem c9_counterexample :
    fuseModalityResults (fun _ => 1)
      [⟨"a", 1, ⟨none, none⟩⟩, ⟨"b", 2, ⟨none, none⟩⟩] [] 2 =
      [⟨"a", 1, ⟨none, none⟩⟩, ⟨"b", 2, ⟨none, none⟩⟩]
    ∧ ¬ (fuseModalityResults (fun _ => 1)
          [⟨"a", 1, ⟨none, none⟩⟩, ⟨"b", 2, ⟨none, none⟩⟩] [] 2).Pairwise
        (fun a b => b.score ≤ a.score) := by
  constructor
  · decide
  · intro h
    rw [show fuseModalityResults (fun _ => 1)
      [⟨"a", 1, ⟨none, none⟩⟩, ⟨"b", 2, ⟨none, none⟩⟩] [] 2 =
      [⟨"a", 1, ⟨none, none⟩⟩, ⟨"b", 2, ⟨none, none⟩⟩] from by decide] at h
    rw [List.pairwise_cons] at h
    have := h.1 ⟨"b", 2, ⟨none, none⟩⟩ (by decide)
    norm_num at this

/-- Witness for C9 (amended) at a concrete pair of non-empty inputs. -/
theorem c9_fusion_output_contract_witness :
    (fuseModalityResults (fun _ => 1) [⟨"t", 1, ⟨none, none⟩⟩]
      [⟨"a", 1, ⟨none, none⟩⟩] 10).length ≤ 10
    ∧ (fuseModalityResults (fun _ => 1) [⟨"t", 1, ⟨none, none⟩⟩]
        [⟨"a", 1, ⟨none, none⟩⟩] 10).Pairwise (fun a b => b.score ≤ a.score) :=
  ⟨(c9_fusion_output_contract (fun _ => 1) [⟨"t", 1, ⟨none, none⟩⟩]
      [⟨"a", 1, ⟨none, none⟩⟩] 10).1,
   ((c9_fusion_output_contract (fun _ => 1) [⟨"t", 1, ⟨none, none⟩⟩]
      [⟨"a", 1, ⟨none, none⟩⟩] 10).2 (by decide) (by decide)).1⟩

/-- C3 (amended): for non-empty modality lists in which each image id occurs
at most once, the fused score of every output element decomposes as the sum,
over the modalities whose list contains its id, of that modality's weight
times the id's normalized score there.  (A duplicated image id is added once
per occurrence: see the counterexample.) -/
theorem c3_fused_score_decomposition (expF : ℚ → ℚ)
    (textResults imageResults : List SearchResult) (limit : ℕ)
    (ht : textResults ≠ []) (hi : imageResults ≠ [])
    (hnd : (resultIds imageResults).Nodup) :
    ∀ r ∈ fuseModalityResults expF textResults imageResults limit,
      r.score =
        (if r.id ∈ resultIds textResults then
          (fusionWeights expF textResults imageResults).1 *
            normValue textResults r.id
         else 0)
        + (if r.id ∈ resultIds imageResults then
          (fusionWeights expF textResults imageResults).2 *
            normValue imageResults r.id
         else 0) := by
  intro r hr
  rw [fuseModalityResults, if_neg hi, if_neg ht] at hr
  have hr2 : r ∈ (mapValues (fusionCombined expF textResults
      imageResults)).map
      (fun e => (⟨e.1.id, e.2, e.1.metadata⟩ : SearchResult)) :=
    ((sortLe_perm _ _).mem_iff).1 (List.mem_of_mem_take hr)
  obtain ⟨e, he, rfl⟩ := List.mem_map.1 hr2
  obtain ⟨p, hp, rfl⟩ := List.mem_map.1 he
  have hidp : p.2.1.id = p.1 :=
    fusionCombined_entryInv expF textResults imageResults p hp
  have hgetp : mapGet (fusionCombined expF textResults imageResults) p.1 =
      some p.2 :=
    mapGet_of_mem_keysNodup
      (fusionCombined_keysNodup expF textResults imageResults) hp
  simp only [hidp]
  rw [fusionCombined] at hgetp
  have htext := foldl_mapSet_get
    (fun r0 : SearchResult =>
      ((⟨r0.id, (fusionWeights expF textResults imageResults).1 *
          (mapGet (normalizeScores textResults) r0.id).getD 0,
        r0.metadata⟩ : SearchResult),
       (fusionWeights expF textResults imageResults).1 *
          (mapGet (normalizeScores textResults) r0.id).getD 0))
    (fuseTextStep (normalizeScores textResults)
      (fusionWeights expF textResults imageResults).1)
    (fun _ _ => rfl) textResults [] p.1
  rcases foldl_fuseImageStep_get (normalizeScores imageResults)
      (fusionWeights expF textResults imageResults).2 imageResults
      (textResults.foldl
        (fuseTextStep (normalizeScores textResults)
          (fusionWeights expF textResults imageResults).1) [])
      p.1 hnd with ⟨hmem, v, hv, hcase⟩ | ⟨hnot, hpass⟩
  · rw [hgetp] at hv
    have hvp : v = p.2 := Option.some.inj hv.symm
    rcases hcase with ⟨e2, hold, hval⟩ | ⟨hnone, hval⟩
    · rcases htext with ⟨r1, _, hid1, hv1⟩ | ⟨_, hvT⟩
      · rw [hold] at hv1
        have he2 := Option.some.inj hv1
        rw [if_pos hmem, if_pos (hid1 ▸ List.mem_map_of_mem
          (fun r0 : SearchResult => r0.id) (by assumption))]
        rw [← hvp, hval, he2]
        simp only [normValue, hid1]
      · rw [hvT] at hold
        simp [mapGet] at hold
    · rcases htext with ⟨r1, _, hid1, hv1⟩ | ⟨hnotT, _⟩
      · rw [hnone] at hv1
        simp at hv1
      · rw [if_pos hmem, if_neg hnotT, ← hvp, hval]
        rw [zero_add]
        rfl
  · rw [hgetp] at hpass
    rcases htext with ⟨r1, hr1, hid1, hv1⟩ | ⟨_, hvT⟩
    · rw [← hpass] at hv1
      have hp2 := Option.some.inj hv1
      rw [if_pos (hid1 ▸ List.mem_map_of_mem
        (fun r0 : SearchResult => r0.id) hr1), if_neg hnot, hp2]
      rw [add_zero]
      simp only [normValue, hid1]
    · rw [hvT] at hpass
      simp [mapGet] at hpass

/-- Counterexample for C3 as frozen: when an id occurs twice in the image
list, each occurrence adds `imageWeight × normalizedScore` again, so the id
"a", which appears only in the image modality with normalized score 1 and
`imageWeight = 1/2` (the model's `expF` agrees with `Math.exp` at the only
evaluated point, `exp 0 = 1`), ends with fused score `1 ≠ 1/2 × 1`. -/
theorem c3_counterexample :
    (fuseModalityResults (fun _ => 1) [⟨"t", 1, ⟨none, none⟩⟩]
      [⟨"a", 1, ⟨none, none⟩⟩, ⟨"a", 1, ⟨none, none⟩⟩] 10).map
      (fun r => (r.id, r.score)) = [("a", 1), ("t", 1/2)]
    ∧ "a" ∉ resultIds [(⟨"t", 1, ⟨none, none⟩⟩ : SearchResult)]
    ∧ (fusionWeights (fun _ => 1) [⟨"t", 1, ⟨none, none⟩⟩]
        [⟨"a", 1, ⟨none, none⟩⟩, ⟨"a", 1, ⟨none, none⟩⟩]).2 *
        normValue [⟨"a", 1, ⟨none, none⟩⟩, ⟨"a", 1, ⟨none, none⟩⟩] "a" = 1/2
    ∧ (1 : ℚ) ≠ 1/2 := by
  refine ⟨?_, by decide, ?_, by norm_num⟩
  · simp only [fuseModalityResults, fusionCombined, fusionWeights,
      computeModalityWeights, softmax, computeConfidence, normalizeScores,
      nsValue, maxScore, minScore, mapValues, mapGet, mapSet, fuseTextStep,
      fuseImageStep, sortLe, insertLe, resultIds, normValue]
    norm_num
    try simp [fuseTextStep, fuseImageStep, mapGet, mapSet, sortLe, insertLe,
      mapValues, Function.comp]
    try norm_num
  · simp only [fusionWeights, computeModalityWeights, softmax,
      computeConfidence, normalizeScores, nsValue, maxScore, minScore,
      mapValues, mapGet, mapSet, sortLe, insertLe, normValue]
    norm_num
    try simp [mapGet, mapSet, sortLe, insertLe, mapValues]
    try norm_num

/-- Witness for C3 (amended) at a concrete pair of non-empty inputs with
distinct image ids, instantiated at the image-only output element. -/
theorem c3_fused_score_decomposition_witness :
    ((⟨"a", 1/2, ⟨none, none⟩⟩ : SearchResult)).score =
      (if (⟨"a", 1/2, ⟨none, none⟩⟩ : SearchResult).id ∈
          resultIds [⟨"t", 1, ⟨none, none⟩⟩] then
        (fusionWeights (fun _ => 1) [⟨"t", 1, ⟨none, none⟩⟩]
          [⟨"a", 1, ⟨none, none⟩⟩]).1 *
          normValue [⟨"t", 1, ⟨none, none⟩⟩]
            (⟨"a", 1/2, ⟨none, none⟩⟩ : SearchResult).id
       else 0)
      + (if (⟨"a", 1/2, ⟨none, none⟩⟩ : SearchResult).id ∈
          resultIds [⟨"a", 1, ⟨none, none⟩⟩] then
        (fusionWeights (fun _ => 1) [⟨"t", 1, ⟨none, none⟩⟩]
          [⟨"a", 1, ⟨none, none⟩⟩]).2 *
          normValue [⟨"a", 1, ⟨none, none⟩⟩]
            (⟨"a", 1/2, ⟨none, none⟩⟩ : SearchResult).id
       else 0) :=
  c3_fused_score_decomposition (fun _ => 1) [⟨"t", 1, ⟨none, none⟩⟩]
    [⟨"a", 1, ⟨none, none⟩⟩] 10 (by decide) (by decide) (by decide)
    ⟨"a", 1/2, ⟨none, none⟩⟩ (by
      simp only [fuseModalityResults, fusionCombined, fusionWeights,
        computeModalityWeights, softmax, computeConfidence, normalizeScores,
        nsValue, maxScore, minScore, mapValues, mapGet, mapSet, fuseTextStep,
        fuseImageStep, sortLe, insertLe, resultIds, normValue]
      norm_num
      try simp [fuseTextStep, fuseImageStep, mapGet, mapSet, sortLe, insertLe,
        mapValues, Function.comp]
      try norm_num)

/-! ## Claim C2 -/

theorem splitPointFold_all_tooClose (text : List Char) :
    ∀ (cands : List ℤ) (st0 : ℤ × Option ℤ),
      (∀ c ∈ cands, tooCloseToEdge text c = true) →
      cands.foldl (splitPointStep text) st0 = st0 := by
  intro cands
  induction cands with
  | nil => intro st0 _; rfl
  | cons c cs ih =>
    intro st0 h
    rw [List.foldl_cons]
    have hc : tooCloseToEdge text c = true := h c (List.mem_cons_self c cs)
    have hstep : splitPointStep text st0 c = st0 := by
      rw [splitPointStep]
      simp [hc]
    rw [hstep]
    exact ih st0 (fun c1 hc1 => h c1 (List.mem_cons_of_mem c hc1))

theorem enforceMaxSizeGo_guard_stop (tokensFor : List Char → ℕ)
    (maxTokens : ℕ) (fuel : ℕ) (text : List Char)
    (h : findSplitPoint text ≤ 0 ∨
      (text.length : ℤ) - 1 ≤ findSplitPoint text) :
    enforceMaxSizeGo tokensFor maxTokens fuel text = [text] := by
  cases fuel with
  | zero =>
    rw [enforceMaxSizeGo]
    split
    · rfl
    · rfl
  | succ f =>
    rw [enforceMaxSizeGo]
    split
    · rfl
    · simp only
      rw [if_pos h]

/-- C2 (amended): when every candidate split index is within 200 characters
of an edge (in particular when there is no paragraph break or
sentence-ending punctuation at all), `findSplitPoint` does not report
failure but falls back to the character midpoint, and the oversized segment
is still bisected there; it is returned unchanged as a single piece only
when the chosen split index is degenerate (`≤ 0` or `≥ length - 1`), i.e.
for texts of at most 2 characters. -/
theorem c2_no_valid_split_midpoint (tokensFor : List Char → ℕ)
    (maxTokens : ℕ) (text : List Char)
    (hnv : ∀ c ∈ candidatesList text, tooCloseToEdge text c = true) :
    findSplitPoint text = ((text.length / 2 : ℕ) : ℤ)
    ∧ (maxTokens < tokensFor text → text.length ≤ 2 →
        enforceMaxSize tokensFor maxTokens text = [text]) := by
  have hfsp : findSplitPoint text = ((text.length / 2 : ℕ) : ℤ) := by
    rw [findSplitPoint, splitPointFold_all_tooClose text _ _ hnv]
    rfl
  refine ⟨hfsp, fun _ hlen => ?_⟩
  rw [enforceMaxSize]
  refine enforceMaxSizeGo_guard_stop tokensFor maxTokens _ text ?_
  rw [hfsp]
  have h3 : text.length = 0 ∨ text.length = 1 ∨ text.length = 2 := by omega
  rcases h3 with h3 | h3 | h3 <;> rw [h3] <;> norm_num

/-- Counterexample for C2 as frozen: the oversized segment "abcdef"
(6 tokens under the character-count estimator, maxTokens 1) has no valid
split point — it has no paragraph break or sentence-ending punctuation at
all, so a fortiori none farther than 200 characters from the edges — yet
`enforceMaxSize` does not return it unchanged: it bisects it recursively at
character midpoints. -/
theorem c2_counterexample :
    (∀ c ∈ candidatesList "abcdef".data,
      tooCloseToEdge "abcdef".data c = true)
    ∧ 1 < ("abcdef".data).length
    ∧ enforceMaxSize (fun l => l.length) 1 "abcdef".data ≠ ["abcdef".data]
    ∧ enforceMaxSize (fun l => l.length) 1 "abcdef".data =
        [['a'], ['b', 'c'], ['d'], ['e', 'f']] := by
  refine ⟨by decide, by decide, by decide, by decide⟩

/-- Witness for C2 (amended): the 2-character oversized text "ab" (no valid
candidate) splits at the midpoint index 1, which the guard rejects, so it is
returned unchanged. -/
theorem c2_no_valid_split_midpoint_witness :
    findSplitPoint "ab".data = 1
    ∧ enforceMaxSize (fun l => l.length) 1 "ab".data = ["ab".data] :=
  ⟨(c2_no_valid_split_midpoint (fun l => l.length) 1 "ab".data (by decide)).1,
   (c2_no_valid_split_midpoint (fun l => l.length) 1 "ab".data (by decide)).2
     (by decide) (by decide)⟩

/-! ## Claim C7 -/

/-- C7 (amended): for every document whose normalized text is non-empty and
splits into at most one sentence, `chunkDocumentSemantic` skips the rest of
the pipeline and returns exactly one chunk holding the whole normalized
text, with `sentenceCount = max(1, count)`.  (The empty/whitespace-only
document instead returns no chunk at all: see the counterexample.) -/
theorem c7_single_sentence_short_circuit
    (splitter : List Char → List (List Char))
    (embedder : List (List Char) → List (List ℚ))
    (tokensFor : List Char → ℕ) (sqrtF : ℚ → ℚ)
    (content : List Char) (opts : ResolvedOptions)
    (h1 : normalizeContent content ≠ [])
    (h2 : (splitter (normalizeContent content)).length ≤ 1) :
    chunkDocumentSemantic splitter embedder tokensFor sqrtF content opts =
      [⟨normalizeContent content,
        max 1 (splitter (normalizeContent content)).length⟩] := by
  simp only [chunkDocumentSemantic]
  rw [if_neg h1, if_pos h2]
  have : (if (splitter (normalizeContent content)).length = 0 then 1
      else (splitter (normalizeContent content)).length) =
      max 1 (splitter (normalizeContent content)).length := by
    by_cases hL : (splitter (normalizeContent content)).length = 0
    · rw [if_pos hL, hL]
      omega
    · rw [if_neg hL]
      omega
  rw [this]

/-- Counterexample for C7 as frozen: the empty document normalizes to the
empty string and `chunkDocumentSemantic` returns the empty chunk list, not
one chunk. -/
theorem c7_counterexample :
    chunkDocumentSemantic (fun _ => []) (fun _ => []) (fun _ => 0)
      (fun _ => 0) [] DEFAULT_OPTIONS = []
    ∧ (chunkDocumentSemantic (fun _ => []) (fun _ => []) (fun _ => 0)
        (fun _ => 0) [] DEFAULT_OPTIONS).length ≠ 1 := by
  refine ⟨by decide, by decide⟩

/-- Witness for C7 (amended) on the document "Hi" with a single-sentence
splitter. -/
theorem c7_single_sentence_short_circuit_witness :
    chunkDocumentSemantic (fun l => [l]) (fun _ => []) (fun _ => 0)
      (fun _ => 0) "Hi".data DEFAULT_OPTIONS =
      [⟨normalizeContent "Hi".data,
        max 1 [normalizeContent "Hi".data].length⟩] :=
  c7_single_sentence_short_circuit (fun l => [l]) (fun _ => []) (fun _ => 0)
    (fun _ => 0) "Hi".data DEFAULT_OPTIONS (by decide) (by decide)

/-! ## Claim C6 -/

theorem chain_snoc {R : ℕ → ℕ → Prop} :
    ∀ (l : List ℕ) (a last b : ℕ), List.Chain R a l →
      (a :: l).getLast? = some last → R last b →
      List.Chain R a (l ++ [b]) := by
  intro l
  induction l with
  | nil =>
    intro a last b _ hlast hr
    have ha : a = last := by simpa using hlast
    exact List.Chain.cons (ha ▸ hr) List.Chain.nil
  | cons x xs ih =>
    intro a last b hchain hlast hr
    rw [List.chain_cons] at hchain
    rw [List.cons_append, List.chain_cons]
    refine ⟨hchain.1, ih x last b hchain.2 ?_ hr⟩
    rw [← hlast, List.getLast?_cons_cons]

theorem breakPointStep_inv (smoothed : List ℚ) (mean threshold simDrop : ℚ)
    (n : ℕ) (st : ℕ × List ℕ) (i : ℕ)
    (h1 : List.Chain (fun a b => a + 2 ≤ b) 0 st.2)
    (h2 : (0 :: st.2).getLast? = some st.1)
    (h3 : ∀ b ∈ st.2, (b : ℤ) ≤ (n : ℤ) - 2) :
    List.Chain (fun a b => a + 2 ≤ b) 0
      (breakPointStep smoothed mean threshold simDrop n st i).2
    ∧ (0 :: (breakPointStep smoothed mean threshold simDrop n st i).2).getLast?
        = some (breakPointStep smoothed mean threshold simDrop n st i).1
    ∧ ∀ b ∈ (breakPointStep smoothed mean threshold simDrop n st i).2,
        (b : ℤ) ≤ (n : ℤ) - 2 := by
  rw [breakPointStep]
  by_cases hc : (((simDrop <
        (if 0 < i then smoothed.getD (i - 1) 0 else mean) -
          smoothed.getD i 0 ∧
      smoothed.getD i 0 < (if 0 < i then smoothed.getD (i - 1) 0 else mean))
      ∨ smoothed.getD i 0 < threshold)
    ∧ (2 : ℤ) ≤ (i : ℤ) + 1 - (st.1 : ℤ)
    ∧ (i : ℤ) + 1 < (n : ℤ) - 1)
  · rw [if_pos hc]
    refine ⟨?_, ?_, ?_⟩
    · exact chain_snoc st.2 0 st.1 (i + 1) h1 h2 (by omega)
    · rw [← List.cons_append, List.getLast?_concat]
    · intro b hb
      rcases List.mem_append.1 hb with hb | hb
      · exact h3 b hb
      · have : b = i + 1 := by simpa using hb
        subst this
        omega
  · rw [if_neg hc]
    exact ⟨h1, h2, h3⟩

theorem foldl_breakPointStep_inv (smoothed : List ℚ)
    (mean threshold simDrop : ℚ) (n : ℕ) :
    ∀ (is : List ℕ) (st : ℕ × List ℕ),
      List.Chain (fun a b => a + 2 ≤ b) 0 st.2 →
      (0 :: st.2).getLast? = some st.1 →
      (∀ b ∈ st.2, (b : ℤ) ≤ (n : ℤ) - 2) →
      List.Chain (fun a b => a + 2 ≤ b) 0
        (is.foldl (breakPointStep smoothed mean threshold simDrop n) st).2
      ∧ ∀ b ∈ (is.foldl (breakPointStep smoothed mean threshold simDrop n)
          st).2, (b : ℤ) ≤ (n : ℤ) - 2 := by
  intro is
  induction is with
  | nil => intro st h1 _ h3; exact ⟨h1, h3⟩
  | cons i irest ih =>
    intro st h1 h2 h3
    rw [List.foldl_cons]
    have hstep := breakPointStep_inv smoothed mean threshold simDrop n st i
      h1 h2 h3
    exact ih _ hstep.1 hstep.2.1 hstep.2.2

/-- C6: for every similarity series and sentence count `n`, the breakpoint
indices returned by `detectBreakPoints` are strictly increasing, every two
consecutive breakpoints (and the start and the first breakpoint) are at
least 2 apart, and every breakpoint `b` satisfies `b ≤ n - 2`, leaving at
least 2 trailing sentences. -/
theorem c6_breakpoint_spacing (sqrtF : ℚ → ℚ) (similarities : List ℚ)
    (n : ℕ) (opts : ResolvedOptions) :
    List.Chain (fun a b => a + 2 ≤ b) 0
      (detectBreakPoints sqrtF similarities n opts)
    ∧ List.Chain' (fun a b => a < b)
        (detectBreakPoints sqrtF similarities n opts)
    ∧ ∀ b ∈ detectBreakPoints sqrtF similarities n opts,
        (b : ℤ) ≤ (n : ℤ) - 2 := by
  have hmain : List.Chain (fun a b => a + 2 ≤ b) 0
      (detectBreakPoints sqrtF similarities n opts)
    ∧ ∀ b ∈ detectBreakPoints sqrtF similarities n opts,
        (b : ℤ) ≤ (n : ℤ) - 2 := by
    by_cases hs : similarities = []
    · rw [detectBreakPoints, if_pos hs]
      exact ⟨List.Chain.nil, by simp⟩
    · rw [detectBreakPoints, if_neg hs]
      exact foldl_breakPointStep_inv _ _ _ _ n
        (List.range similarities.length) (0, []) List.Chain.nil rfl
        (by simp)
  refine ⟨hmain.1, ?_, hmain.2⟩
  have hchain : List.Chain' (fun a b => a + 2 ≤ b)
      (detectBreakPoints sqrtF similarities n opts) := by
    rcases hl : detectBreakPoints sqrtF similarities n opts with _ | ⟨x, xs⟩
    · exact List.chain'_nil
    · have := hmain.1
      rw [hl, List.chain_cons] at this
      exact this.2
  exact hchain.imp (fun h => by omega)

set_option maxHeartbeats 1000000 in
/-- Witness for C6 on a concrete series: with similarities `[1, 0, 1]`,
5 sentences and no smoothing, the drop at position 1 yields exactly the
breakpoint list `[2]`, which satisfies the spacing bounds. -/
theorem c6_breakpoint_spacing_witness :
    detectBreakPoints (fun _ => 0) [1, 0, 1] 5 ⟨1200, 1800, 400, 1/4, 1, 0⟩
      = [2]
    ∧ List.Chain (fun a b => a + 2 ≤ b) 0
        (detectBreakPoints (fun _ => 0) [1, 0, 1] 5
          ⟨1200, 1800, 400, 1/4, 1, 0⟩)
    ∧ ((2 : ℕ) : ℤ) ≤ (5 : ℤ) - 2 := by
  have heval : detectBreakPoints (fun _ => 0) [1, 0, 1] 5
      ⟨1200, 1800, 400, 1/4, 1, 0⟩ = [2] := by
    simp only [detectBreakPoints, smooth]
    norm_num
    norm_num [List.range_succ, breakPointStep, List.getD]
    decide
  refine ⟨heval,
    (c6_breakpoint_spacing (fun _ => 0) [1, 0, 1] 5
      ⟨1200, 1800, 400, 1/4, 1, 0⟩).1, ?_⟩
  exact (c6_breakpoint_spacing (fun _ => 0) [1, 0, 1] 5
    ⟨1200, 1800, 400, 1/4, 1, 0⟩).2.2 2
    (by rw [heval]; exact List.mem_singleton.2 rfl)

/-! ## String content lemmas (separators and trimming are whitespace-only) -/

theorem removeWs_append (a b : List Char) :
    removeWs (a ++ b) = removeWs a ++ removeWs b :=
  List.filter_append a b

theorem removeWs_dropWhile (l : List Char) :
    removeWs (l.dropWhile isWs) = removeWs l := by
  induction l with
  | nil => rfl
  | cons c cs ih =>
    by_cases h : isWs c
    · rw [List.dropWhile_cons, if_pos h, ih]
      show List.filter (fun c0 => !isWs c0) cs =
        List.filter (fun c0 => !isWs c0) (c :: cs)
      rw [List.filter_cons]
      simp [h]
    · rw [List.dropWhile_cons, if_neg h]

theorem removeWs_reverse (l : List Char) :
    removeWs l.reverse = (removeWs l).reverse :=
  List.filter_reverse _ l

theorem removeWs_jsTrim (l : List Char) :
    removeWs (jsTrim l) = removeWs l := by
  rw [jsTrim, removeWs_reverse, removeWs_dropWhile, removeWs_reverse,
    removeWs_dropWhile, List.reverse_reverse]

theorem removeWs_ne_nil_of_jsTrim_ne_nil {l : List Char}
    (h : jsTrim l ≠ []) : removeWs (jsTrim l) ≠ [] := by
  rw [jsTrim] at h ⊢
  have h1 : (l.dropWhile isWs).reverse.dropWhile isWs ≠ [] := by
    intro h0
    exact h (by rw [h0]; rfl)
  have hhead := List.head_dropWhile_not isWs (l.dropWhile isWs).reverse h1
  have hmem : ((l.dropWhile isWs).reverse.dropWhile isWs).head h1 ∈
      ((l.dropWhile isWs).reverse.dropWhile isWs).reverse :=
    List.mem_reverse.2 (List.head_mem h1)
  intro h0
  rw [removeWs, List.filter_eq_nil_iff] at h0
  exact h0 _ hmem (by simp [hhead])

theorem removeWs_take_drop (k : ℕ) (t : List Char) :
    removeWs t = removeWs (t.take k) ++ removeWs (t.drop k) := by
  rw [← removeWs_append, List.take_append_drop]

theorem removeWs_joinSp (pieces : List (List Char)) :
    removeWs (joinSp pieces) = removeWs pieces.flatten := by
  induction pieces with
  | nil => rfl
  | cons p rest ih =>
    cases rest with
    | nil => simp [joinSp, List.flatten]
    | cons q rs =>
      rw [joinSp, List.flatten_cons, removeWs_append, removeWs_append]
      rw [show (' ' :: joinSp (q :: rs)) = [' '] ++ joinSp (q :: rs) from rfl,
        removeWs_append, ih]
      rfl

theorem enforceMaxSizeGo_zero (tokensFor : List Char → ℕ) (maxTokens : ℕ)
    (t : List Char) :
    enforceMaxSizeGo tokensFor maxTokens 0 t = [t] := by
  rw [enforceMaxSizeGo]
  split
  · rfl
  · rfl

/-- Unfolding equation for the recursive case of `enforceMaxSizeGo`, with
the `left`/`right`/`pieces` bindings substituted. -/
theorem enforceMaxSizeGo_succ (tokensFor : List Char → ℕ) (maxTokens : ℕ)
    (f : ℕ) (t : List Char) :
    enforceMaxSizeGo tokensFor maxTokens (f + 1) t =
      if tokensFor t ≤ maxTokens then [t]
      else if findSplitPoint t ≤ 0 ∨
          (t.length : ℤ) - 1 ≤ findSplitPoint t then [t]
      else if ((if jsTrim (t.take (findSplitPoint t).toNat) ≠ [] then
            enforceMaxSizeGo tokensFor maxTokens f
              (jsTrim (t.take (findSplitPoint t).toNat))
          else []) ++
        (if jsTrim (t.drop (findSplitPoint t).toNat) ≠ [] then
            enforceMaxSizeGo tokensFor maxTokens f
              (jsTrim (t.drop (findSplitPoint t).toNat))
          else [])) = [] then [t]
      else ((if jsTrim (t.take (findSplitPoint t).toNat) ≠ [] then
            enforceMaxSizeGo tokensFor maxTokens f
              (jsTrim (t.take (findSplitPoint t).toNat))
          else []) ++
        (if jsTrim (t.drop (findSplitPoint t).toNat) ≠ [] then
            enforceMaxSizeGo tokensFor maxTokens f
              (jsTrim (t.drop (findSplitPoint t).toNat))
          else [])) := rfl

theorem enforceMaxSizeGo_content (tokensFor : List Char → ℕ)
    (maxTokens : ℕ) :
    ∀ (fuel : ℕ) (t : List Char),
      removeWs (enforceMaxSizeGo tokensFor maxTokens fuel t).flatten =
        removeWs t := by
  intro fuel
  induction fuel with
  | zero =>
    intro t
    rw [enforceMaxSizeGo_zero]
    simp
  | succ f ih =>
    intro t
    rw [enforceMaxSizeGo_succ]
    by_cases htok : tokensFor t ≤ maxTokens
    · rw [if_pos htok]; simp
    · rw [if_neg htok]
      by_cases hguard : findSplitPoint t ≤ 0 ∨
          (t.length : ℤ) - 1 ≤ findSplitPoint t
      · rw [if_pos hguard]; simp
      · rw [if_neg hguard]
        have hleft : removeWs (if jsTrim (t.take
            (findSplitPoint t).toNat) ≠ [] then
            enforceMaxSizeGo tokensFor maxTokens f
              (jsTrim (t.take (findSplitPoint t).toNat))
            else []).flatten =
            removeWs (t.take (findSplitPoint t).toNat) := by
          by_cases hl : jsTrim (t.take (findSplitPoint t).toNat) ≠ []
          · rw [if_pos hl, ih, removeWs_jsTrim]
          · rw [if_neg hl]
            rw [not_not] at hl
            have h2 := removeWs_jsTrim (t.take (findSplitPoint t).toNat)
            rw [hl] at h2
            rw [List.flatten_nil]
            exact h2
        have hright : removeWs (if jsTrim (t.drop
            (findSplitPoint t).toNat) ≠ [] then
            enforceMaxSizeGo tokensFor maxTokens f
              (jsTrim (t.drop (findSplitPoint t).toNat))
            else []).flatten =
            removeWs (t.drop (findSplitPoint t).toNat) := by
          by_cases hr : jsTrim (t.drop (findSplitPoint t).toNat) ≠ []
          · rw [if_pos hr, ih, removeWs_jsTrim]
          · rw [if_neg hr]
            rw [not_not] at hr
            have h2 := removeWs_jsTrim (t.drop (findSplitPoint t).toNat)
            rw [hr] at h2
            rw [List.flatten_nil]
            exact h2
        by_cases hp : ((if jsTrim (t.take (findSplitPoint t).toNat) ≠ []
            then enforceMaxSizeGo tokensFor maxTokens f
              (jsTrim (t.take (findSplitPoint t).toNat))
            else []) ++
          (if jsTrim (t.drop (findSplitPoint t).toNat) ≠ [] then
              enforceMaxSizeGo tokensFor maxTokens f
                (jsTrim (t.drop (findSplitPoint t).toNat))
            else [])) = []
        · rw [if_pos hp]; simp
        · rw [if_neg hp]
          rw [List.flatten_append, removeWs_append, hleft, hright,
            ← removeWs_take_drop]

theorem enforceMaxSize_content (tokensFor : List Char → ℕ) (maxTokens : ℕ)
    (t : List Char) :
    removeWs (enforceMaxSize tokensFor maxTokens t).flatten = removeWs t :=
  enforceMaxSizeGo_content tokensFor maxTokens t.length t

theorem removeWs_nlnl_mid (a b : List Char) :
    removeWs (a ++ ['\n', '\n'] ++ b) = removeWs a ++ removeWs b := by
  rw [removeWs_append, removeWs_append]
  rw [show removeWs ['\n', '\n'] = [] from by decide]
  rw [List.append_nil]

theorem removeWs_mergeCandidate (current part : List Char) :
    removeWs (mergeCandidate current part) =
      removeWs current ++ removeWs part := by
  rw [mergeCandidate]
  by_cases h : current = []
  · rw [if_pos h, h]
    rfl
  · rw [if_neg h, removeWs_nlnl_mid]

theorem removeWs_blank_of_jsTrim_nil {l : List Char} (h : jsTrim l = []) :
    removeWs l = [] := by
  have h2 := removeWs_jsTrim l
  rw [h] at h2
  exact h2.symm

theorem textsContent_append (a b : List SemanticChunk) :
    textsContent (a ++ b) = textsContent a ++ textsContent b := by
  rw [textsContent, textsContent, textsContent, List.map_append,
    List.flatten_append, removeWs_append]

theorem textsContent_singleton (c : SemanticChunk) :
    textsContent [c] = removeWs c.text := by
  simp [textsContent]

theorem textsContent_cons (c : SemanticChunk) (cs : List SemanticChunk) :
    textsContent (c :: cs) = removeWs c.text ++ textsContent cs := by
  rw [textsContent, textsContent, List.map_cons, List.flatten_cons,
    removeWs_append]

theorem finalFlush_content (st : MergeState) :
    textsContent (finalFlush st) = stateContent st := by
  rw [finalFlush, stateContent]
  by_cases h : jsTrim st.current ≠ []
  · rw [if_pos h, textsContent_append, textsContent_singleton]
  · rw [if_neg h]
    rw [not_not] at h
    rw [removeWs_blank_of_jsTrim_nil h, List.append_nil]

theorem mergePart_content (tokensFor : List Char → ℕ)
    (splitter : List Char → List (List Char)) (opts : ResolvedOptions)
    (st : MergeState) (part : List Char) :
    stateContent (mergePart tokensFor splitter opts st part) =
      stateContent st ++ removeWs part := by
  rw [mergePart]
  by_cases hA : opts.maxTokens < tokensFor (mergeCandidate st.current part) ∧
      st.current ≠ []
  · rw [if_pos hA]
    show textsContent (finalFlush st) ++ removeWs part = _
    rw [finalFlush_content]
  · rw [if_neg hA]
    by_cases hB : opts.targetTokens ≤ tokensFor (mergeCandidate st.current
        part)
    · rw [if_pos hB]
      show textsContent (st.chunks ++ [⟨mergeCandidate st.current part, _⟩])
          ++ removeWs [] = _
      rw [textsContent_append, textsContent_singleton]
      show textsContent st.chunks ++
        removeWs (mergeCandidate st.current part) ++ [] = _
      rw [List.append_nil, removeWs_mergeCandidate, stateContent,
        List.append_assoc]
    · rw [if_neg hB]
      show textsContent st.chunks ++
        removeWs (mergeCandidate st.current part) = _
      rw [removeWs_mergeCandidate, stateContent, List.append_assoc]

theorem foldl_mergePart_content (tokensFor : List Char → ℕ)
    (splitter : List Char → List (List Char)) (opts : ResolvedOptions) :
    ∀ (parts : List (List Char)) (st : MergeState),
      stateContent (parts.foldl (mergePart tokensFor splitter opts) st) =
        stateContent st ++ removeWs parts.flatten := by
  intro parts
  induction parts with
  | nil => intro st; simp [removeWs]
  | cons p ps ih =>
    intro st
    rw [List.foldl_cons, ih, mergePart_content, List.flatten_cons,
      removeWs_append, List.append_assoc]

theorem mergeSegment_content (tokensFor : List Char → ℕ)
    (splitter : List Char → List (List Char)) (opts : ResolvedOptions)
    (st : MergeState) (segment : List Char) :
    stateContent (mergeSegment tokensFor splitter opts st segment) =
      stateContent st ++ removeWs segment := by
  rw [mergeSegment]
  by_cases h : jsTrim segment = []
  · rw [if_pos h, removeWs_blank_of_jsTrim_nil h, List.append_nil]
  · rw [if_neg h, foldl_mergePart_content, enforceMaxSize_content,
      removeWs_jsTrim]

theorem foldl_mergeSegment_content (tokensFor : List Char → ℕ)
    (splitter : List Char → List (List Char)) (opts : ResolvedOptions) :
    ∀ (segments : List (List Char)) (st : MergeState),
      stateContent (segments.foldl (mergeSegment tokensFor splitter opts)
        st) = stateContent st ++ removeWs segments.flatten := by
  intro segments
  induction segments with
  | nil => intro st; simp [removeWs]
  | cons s ss ih =>
    intro st
    rw [List.foldl_cons, ih, mergeSegment_content, List.flatten_cons,
      removeWs_append, List.append_assoc]

theorem normalizeStep_content (opts : ResolvedOptions)
    (tokensFor : List Char → ℕ) (acc : List SemanticChunk)
    (c : SemanticChunk) :
    textsContent (normalizeStep opts tokensFor acc c) =
      textsContent acc ++ removeWs c.text := by
  rw [normalizeStep]
  by_cases h1 : tokensFor c.text < opts.minTokens ∧ acc ≠ []
  · rw [if_pos h1]
    rcases hl : acc.getLast? with _ | prev
    · show textsContent (acc ++ [c]) = _
      rw [textsContent_append, textsContent_singleton]
    · show textsContent (if tokensFor (prev.text ++ ['\n', '\n'] ++
          c.text) ≤ opts.maxTokens then acc.dropLast ++
          [⟨prev.text ++ ['\n', '\n'] ++ c.text,
            prev.sentenceCount + c.sentenceCount⟩] else acc ++ [c]) = _
      by_cases h2 : tokensFor (prev.text ++ ['\n', '\n'] ++ c.text) ≤
          opts.maxTokens
      · rw [if_pos h2]
        have hne : acc ≠ [] := h1.2
        have hprev : acc.dropLast ++ [prev] = acc := by
          have h3 := List.getLast?_eq_getLast acc hne
          rw [hl] at h3
          have h4 : prev = acc.getLast hne := Option.some.inj h3
          rw [h4]
          exact List.dropLast_append_getLast hne
        rw [textsContent_append, textsContent_singleton]
        show textsContent acc.dropLast ++
          removeWs (prev.text ++ ['\n', '\n'] ++ c.text) = _
        rw [removeWs_nlnl_mid]
        have hacc : textsContent acc =
            textsContent acc.dropLast ++ removeWs prev.text := by
          conv_lhs => rw [← hprev]
          rw [textsContent_append, textsContent_singleton]
        rw [hacc, List.append_assoc]
      · rw [if_neg h2, textsContent_append, textsContent_singleton]
  · rw [if_neg h1, textsContent_append, textsContent_singleton]

theorem foldl_normalizeStep_content (opts : ResolvedOptions)
    (tokensFor : List Char → ℕ) :
    ∀ (cs : List SemanticChunk) (acc : List SemanticChunk),
      textsContent (cs.foldl (normalizeStep opts tokensFor) acc) =
        textsContent acc ++ textsContent cs := by
  intro cs
  induction cs with
  | nil => intro acc; simp [textsContent, removeWs]
  | cons c rest ih =>
    intro acc
    rw [List.foldl_cons, ih, normalizeStep_content, textsContent_cons,
      List.append_assoc]

theorem normalizeSmallChunks_content (chunks : List SemanticChunk)
    (opts : ResolvedOptions) (tokensFor : List Char → ℕ) :
    textsContent (normalizeSmallChunks chunks opts tokensFor) =
      textsContent chunks := by
  rw [normalizeSmallChunks]
  by_cases h : chunks.length ≤ 1
  · rw [if_pos h]
  · rw [if_neg h, foldl_normalizeStep_content]
    rfl

theorem mergeSegments_content (tokensFor : List Char → ℕ)
    (splitter : List Char → List (List Char)) (opts : ResolvedOptions)
    (segments : List (List Char)) :
    textsContent (mergeSegments tokensFor splitter opts segments) =
      removeWs segments.flatten := by
  rw [mergeSegments]
  by_cases h : segments = []
  · rw [if_pos h, h]
    rfl
  · rw [if_neg h, normalizeSmallChunks_content, finalFlush_content,
      foldl_mergeSegment_content]
    rfl

theorem buildSegmentsGo_content (sentences : List (List Char)) :
    ∀ (breaks : List ℕ) (start : ℕ),
      removeWs (buildSegmentsGo sentences start breaks).flatten =
        removeWs (sentences.drop start).flatten := by
  intro breaks
  induction breaks with
  | nil =>
    intro start
    rw [buildSegmentsGo]
    by_cases h : jsTrim (joinSp (sentences.drop start)) = []
    · rw [if_pos h, List.flatten_nil]
      have h2 := removeWs_blank_of_jsTrim_nil h
      rw [removeWs_joinSp] at h2
      exact h2.symm
    · rw [if_neg h]
      show removeWs (jsTrim (joinSp (sentences.drop start)) ++ []) = _
      rw [List.append_nil, removeWs_jsTrim, removeWs_joinSp]
  | cons bp rest ih =>
    intro start
    rw [buildSegmentsGo]
    by_cases hskip : bp ≤ start ∨ sentences.length ≤ bp
    · rw [if_pos hskip]
      exact ih start
    · rw [if_neg hskip]
      rw [List.flatten_append, removeWs_append, ih bp]
      have hpiece : removeWs (if jsTrim (joinSp ((sentences.drop
          start).take (bp - start))) = [] then []
          else [jsTrim (joinSp ((sentences.drop start).take
            (bp - start)))]).flatten =
          removeWs ((sentences.drop start).take (bp - start)).flatten := by
        by_cases h : jsTrim (joinSp ((sentences.drop start).take
            (bp - start))) = []
        · rw [if_pos h, List.flatten_nil]
          have h2 := removeWs_blank_of_jsTrim_nil h
          rw [removeWs_joinSp] at h2
          exact h2.symm
        · rw [if_neg h]
          show removeWs (jsTrim (joinSp ((sentences.drop start).take
            (bp - start))) ++ []) = _
          rw [List.append_nil, removeWs_jsTrim, removeWs_joinSp]
      rw [hpiece]
      have hsplit : (sentences.drop start) =
          (sentences.drop start).take (bp - start) ++ sentences.drop bp := by
        have hd : List.drop (bp - start) (List.drop start sentences) =
            List.drop bp sentences := by
          rw [List.drop_drop]
          congr 1
          omega
        rw [← hd, List.take_append_drop]
      rw [show removeWs (sentences.drop start).flatten =
          removeWs ((sentences.drop start).take (bp - start)).flatten ++
            removeWs (sentences.drop bp).flatten from by
        rw [← removeWs_append, ← List.flatten_append, ← hsplit]]

theorem buildSegments_content (sentences : List (List Char))
    (breakPoints : List ℕ) :
    removeWs (buildSegments sentences breakPoints).flatten =
      removeWs sentences.flatten := by
  rw [buildSegments]
  by_cases h : breakPoints = []
  · rw [if_pos h]
    show removeWs (jsTrim (joinSp sentences) ++ []) = _
    rw [List.append_nil, removeWs_jsTrim, removeWs_joinSp]
  · rw [if_neg h, buildSegmentsGo_content, List.drop_zero]

/-! ## Claim C8 -/

/-- C8: for every sentence list, breakpoint list and configuration (and
every token estimator and sentence splitter), the non-whitespace content of
the concatenated chunk texts produced by the segmentation pipeline
(`buildSegments` then `mergeSegments`) is exactly the non-whitespace
content of the concatenated original sentences: nothing is lost, duplicated
or reordered, and only whitespace separators and trimming differ. -/
theorem c8_order_preservation (tokensFor : List Char → ℕ)
    (splitter : List Char → List (List Char)) (opts : ResolvedOptions)
    (sentences : List (List Char)) (breakPoints : List ℕ) :
    removeWs (((mergeSegments tokensFor splitter opts
        (buildSegments sentences breakPoints)).map
        (fun c => c.text)).flatten) =
      removeWs sentences.flatten := by
  show textsContent (mergeSegments tokensFor splitter opts
    (buildSegments sentences breakPoints)) = _
  rw [mergeSegments_content, buildSegments_content]

/-! ## Claim C10 -/

theorem removeWs_append_ne_nil_right {a b : List Char}
    (h : removeWs b ≠ []) : removeWs (a ++ b) ≠ [] := by
  rw [removeWs_append]
  intro h0
  exact h (List.append_eq_nil.1 h0).2

theorem removeWs_mergeCandidate_ne_nil {current part : List Char}
    (h : removeWs part ≠ []) :
    removeWs (mergeCandidate current part) ≠ [] := by
  rw [removeWs_mergeCandidate]
  intro h0
  exact h (List.append_eq_nil.1 h0).2

theorem enforceMaxSizeGo_nonblank (tokensFor : List Char → ℕ)
    (maxTokens : ℕ) :
    ∀ (fuel : ℕ) (t : List Char), removeWs t ≠ [] →
      ∀ p ∈ enforceMaxSizeGo tokensFor maxTokens fuel t,
        removeWs p ≠ [] := by
  intro fuel
  induction fuel with
  | zero =>
    intro t ht p hp
    rw [enforceMaxSizeGo_zero] at hp
    rwa [← List.mem_singleton.1 hp] at ht
  | succ f ih =>
    intro t ht p hp
    rw [enforceMaxSizeGo_succ] at hp
    by_cases htok : tokensFor t ≤ maxTokens
    · rw [if_pos htok] at hp
      rwa [← List.mem_singleton.1 hp] at ht
    · rw [if_neg htok] at hp
      by_cases hguard : findSplitPoint t ≤ 0 ∨
          (t.length : ℤ) - 1 ≤ findSplitPoint t
      · rw [if_pos hguard] at hp
        rwa [← List.mem_singleton.1 hp] at ht
      · rw [if_neg hguard] at hp
        by_cases hpieces : ((if jsTrim (t.take (findSplitPoint t).toNat) ≠ []
            then enforceMaxSizeGo tokensFor maxTokens f
              (jsTrim (t.take (findSplitPoint t).toNat))
            else []) ++
          (if jsTrim (t.drop (findSplitPoint t).toNat) ≠ [] then
              enforceMaxSizeGo tokensFor maxTokens f
                (jsTrim (t.drop (findSplitPoint t).toNat))
            else [])) = []
        · rw [if_pos hpieces] at hp
          rwa [← List.mem_singleton.1 hp] at ht
        · rw [if_neg hpieces] at hp
          rcases List.mem_append.1 hp with hp1 | hp1
          · by_cases hl : jsTrim (t.take (findSplitPoint t).toNat) ≠ []
            · rw [if_pos hl] at hp1
              exact ih _ (removeWs_ne_nil_of_jsTrim_ne_nil hl) p hp1
            · rw [if_neg hl] at hp1
              exact absurd hp1 (List.not_mem_nil p)
          · by_cases hr : jsTrim (t.drop (findSplitPoint t).toNat) ≠ []
            · rw [if_pos hr] at hp1
              exact ih _ (removeWs_ne_nil_of_jsTrim_ne_nil hr) p hp1
            · rw [if_neg hr] at hp1
              exact absurd hp1 (List.not_mem_nil p)

theorem enforceMaxSize_nonblank (tokensFor : List Char → ℕ) (maxTokens : ℕ)
    (t : List Char) (ht : removeWs t ≠ []) :
    ∀ p ∈ enforceMaxSize tokensFor maxTokens t, removeWs p ≠ [] :=
  enforceMaxSizeGo_nonblank tokensFor maxTokens t.length t ht

theorem removeWs_self_ne_nil_of_jsTrim_ne_nil {l : List Char}
    (h : jsTrim l ≠ []) : removeWs l ≠ [] := by
  have h2 := removeWs_ne_nil_of_jsTrim_ne_nil h
  rwa [removeWs_jsTrim] at h2

theorem finalFlush_nonblank {st : MergeState}
    (hc : ∀ c ∈ st.chunks, removeWs c.text ≠ []) :
    ∀ c ∈ finalFlush st, removeWs c.text ≠ [] := by
  intro c hcmem
  rw [finalFlush] at hcmem
  by_cases h : jsTrim st.current ≠ []
  · rw [if_pos h] at hcmem
    rcases List.mem_append.1 hcmem with h1 | h1
    · exact hc c h1
    · rw [List.mem_singleton.1 h1]
      exact removeWs_self_ne_nil_of_jsTrim_ne_nil h
  · rw [if_neg h] at hcmem
    exact hc c hcmem

theorem mergePart_nonblank (tokensFor : List Char → ℕ)
    (splitter : List Char → List (List Char)) (opts : ResolvedOptions)
    {st : MergeState} {part : List Char}
    (hc : ∀ c ∈ st.chunks, removeWs c.text ≠ [])
    (_hcur : st.current = [] ∨ removeWs st.current ≠ [])
    (hpart : removeWs part ≠ []) :
    (∀ c ∈ (mergePart tokensFor splitter opts st part).chunks,
      removeWs c.text ≠ [])
    ∧ ((mergePart tokensFor splitter opts st part).current = [] ∨
        removeWs (mergePart tokensFor splitter opts st part).current ≠ []) := by
  rw [mergePart]
  by_cases hA : opts.maxTokens < tokensFor (mergeCandidate st.current part) ∧
      st.current ≠ []
  · rw [if_pos hA]
    exact ⟨finalFlush_nonblank hc, Or.inr hpart⟩
  · rw [if_neg hA]
    by_cases hB : opts.targetTokens ≤ tokensFor (mergeCandidate st.current
        part)
    · rw [if_pos hB]
      refine ⟨?_, Or.inl rfl⟩
      intro c hcmem
      rcases List.mem_append.1 hcmem with h1 | h1
      · exact hc c h1
      · rw [List.mem_singleton.1 h1]
        exact removeWs_mergeCandidate_ne_nil hpart
    · rw [if_neg hB]
      exact ⟨hc, Or.inr (removeWs_mergeCandidate_ne_nil hpart)⟩

theorem foldl_mergePart_nonblank (tokensFor : List Char → ℕ)
    (splitter : List Char → List (List Char)) (opts : ResolvedOptions) :
    ∀ (parts : List (List Char)) (st : MergeState),
      (∀ p ∈ parts, removeWs p ≠ []) →
      (∀ c ∈ st.chunks, removeWs c.text ≠ []) →
      (st.current = [] ∨ removeWs st.current ≠ []) →
      (∀ c ∈ (parts.foldl (mergePart tokensFor splitter opts) st).chunks,
        removeWs c.text ≠ [])
      ∧ ((parts.foldl (mergePart tokensFor splitter opts) st).current = [] ∨
          removeWs (parts.foldl (mergePart tokensFor splitter opts)
            st).current ≠ []) := by
  intro parts
  induction parts with
  | nil => intro st _ hc hcur; exact ⟨hc, hcur⟩
  | cons p ps ih =>
    intro st hparts hc hcur
    rw [List.foldl_cons]
    have hstep := mergePart_nonblank tokensFor splitter opts hc hcur
      (hparts p (List.mem_cons_self p ps))
    exact ih _ (fun q hq => hparts q (List.mem_cons_of_mem p hq)) hstep.1
      hstep.2

theorem mergeSegment_nonblank (tokensFor : List Char → ℕ)
    (splitter : List Char → List (List Char)) (opts : ResolvedOptions)
    {st : MergeState} (segment : List Char)
    (hc : ∀ c ∈ st.chunks, removeWs c.text ≠ [])
    (hcur : st.current = [] ∨ removeWs st.current ≠ []) :
    (∀ c ∈ (mergeSegment tokensFor splitter opts st segment).chunks,
      removeWs c.text ≠ [])
    ∧ ((mergeSegment tokensFor splitter opts st segment).current = [] ∨
        removeWs (mergeSegment tokensFor splitter opts st
          segment).current ≠ []) := by
  rw [mergeSegment]
  by_cases h : jsTrim segment = []
  · rw [if_pos h]
    exact ⟨hc, hcur⟩
  · rw [if_neg h]
    exact foldl_mergePart_nonblank tokensFor splitter opts _ st
      (enforceMaxSize_nonblank tokensFor opts.maxTokens _
        (removeWs_ne_nil_of_jsTrim_ne_nil h))
      hc hcur

theorem foldl_mergeSegment_nonblank (tokensFor : List Char → ℕ)
    (splitter : List Char → List (List Char)) (opts : ResolvedOptions) :
    ∀ (segments : List (List Char)) (st : MergeState),
      (∀ c ∈ st.chunks, removeWs c.text ≠ []) →
      (st.current = [] ∨ removeWs st.current ≠ []) →
      (∀ c ∈ (segments.foldl (mergeSegment tokensFor splitter opts)
          st).chunks, removeWs c.text ≠ [])
      ∧ ((segments.foldl (mergeSegment tokensFor splitter opts)
          st).current = [] ∨
          removeWs (segments.foldl (mergeSegment tokensFor splitter opts)
            st).current ≠ []) := by
  intro segments
  induction segments with
  | nil => intro st hc hcur; exact ⟨hc, hcur⟩
  | cons s ss ih =>
    intro st hc hcur
    rw [List.foldl_cons]
    have hstep := mergeSegment_nonblank tokensFor splitter opts s hc hcur
    exact ih _ hstep.1 hstep.2

theorem normalizeStep_nonblank (opts : ResolvedOptions)
    (tokensFor : List Char → ℕ) {acc : List SemanticChunk}
    {c : SemanticChunk}
    (hacc : ∀ x ∈ acc, removeWs x.text ≠ [])
    (hcin : removeWs c.text ≠ []) :
    ∀ x ∈ normalizeStep opts tokensFor acc c, removeWs x.text ≠ [] := by
  intro x hx
  rw [normalizeStep] at hx
  by_cases h1 : tokensFor c.text < opts.minTokens ∧ acc ≠ []
  · rw [if_pos h1] at hx
    rcases hl : acc.getLast? with _ | prev
    · rw [hl] at hx
      have hx2 : x ∈ acc ++ [c] := hx
      rcases List.mem_append.1 hx2 with h2 | h2
      · exact hacc x h2
      · rw [List.mem_singleton.1 h2]
        exact hcin
    · rw [hl] at hx
      have hx2 : x ∈ (if tokensFor (prev.text ++ ['\n', '\n'] ++
          c.text) ≤ opts.maxTokens then acc.dropLast ++
          [⟨prev.text ++ ['\n', '\n'] ++ c.text,
            prev.sentenceCount + c.sentenceCount⟩] else acc ++ [c]) := hx
      clear hx
      rename' hx2 => hx
      by_cases h2 : tokensFor (prev.text ++ ['\n', '\n'] ++ c.text) ≤
          opts.maxTokens
      · rw [if_pos h2] at hx
        rcases List.mem_append.1 hx with h3 | h3
        · exact hacc x (List.Sublist.mem h3 (List.dropLast_sublist acc))
        · rw [List.mem_singleton.1 h3]
          show removeWs (prev.text ++ ['\n', '\n'] ++ c.text) ≠ []
          rw [removeWs_nlnl_mid]
          intro h0
          exact hcin (List.append_eq_nil.1 h0).2
      · rw [if_neg h2] at hx
        rcases List.mem_append.1 hx with h3 | h3
        · exact hacc x h3
        · rw [List.mem_singleton.1 h3]
          exact hcin
  · rw [if_neg h1] at hx
    rcases List.mem_append.1 hx with h3 | h3
    · exact hacc x h3
    · rw [List.mem_singleton.1 h3]
      exact hcin

theorem normalizeSmallChunks_nonblank (chunks : List SemanticChunk)
    (opts : ResolvedOptions) (tokensFor : List Char → ℕ)
    (hc : ∀ c ∈ chunks, removeWs c.text ≠ []) :
    ∀ c ∈ normalizeSmallChunks chunks opts tokensFor,
      removeWs c.text ≠ [] := by
  rw [normalizeSmallChunks]
  by_cases h : chunks.length ≤ 1
  · rw [if_pos h]
    exact hc
  · rw [if_neg h]
    have hgen : ∀ (cs : List SemanticChunk) (acc : List SemanticChunk),
        (∀ c ∈ cs, removeWs c.text ≠ []) →
        (∀ c ∈ acc, removeWs c.text ≠ []) →
        ∀ c ∈ cs.foldl (normalizeStep opts tokensFor) acc,
          removeWs c.text ≠ [] := by
      intro cs
      induction cs with
      | nil => intro acc _ hacc; exact hacc
      | cons c0 rest ih =>
        intro acc hcs hacc
        rw [List.foldl_cons]
        exact ih _ (fun q hq => hcs q (List.mem_cons_of_mem c0 hq))
          (normalizeStep_nonblank opts tokensFor hacc
            (hcs c0 (List.mem_cons_self c0 rest)))
    exact hgen chunks [] hc (by simp)

theorem mergeSegments_nonblank (tokensFor : List Char → ℕ)
    (splitter : List Char → List (List Char)) (opts : ResolvedOptions)
    (segments : List (List Char)) :
    ∀ c ∈ mergeSegments tokensFor splitter opts segments,
      removeWs c.text ≠ [] := by
  rw [mergeSegments]
  by_cases h : segments = []
  · rw [if_pos h]
    simp
  · rw [if_neg h]
    refine normalizeSmallChunks_nonblank _ _ _ ?_
    refine finalFlush_nonblank ?_
    exact (foldl_mergeSegment_nonblank tokensFor splitter opts segments
      ⟨[], [], 0⟩ (by simp) (Or.inl rfl)).1

/-- C10: every chunk returned by `chunkDocumentSemantic` has non-empty,
non-whitespace-only text: no blank chunk is ever emitted by accumulation,
flushing, or tail merging, for any collaborators and configuration. -/
theorem c10_chunks_nonblank (splitter : List Char → List (List Char))
    (embedder : List (List Char) → List (List ℚ))
    (tokensFor : List Char → ℕ) (sqrtF : ℚ → ℚ)
    (content : List Char) (opts : ResolvedOptions) :
    ∀ c ∈ chunkDocumentSemantic splitter embedder tokensFor sqrtF content
        opts, c.text ≠ [] ∧ removeWs c.text ≠ [] := by
  have hmain : ∀ c ∈ chunkDocumentSemantic splitter embedder tokensFor sqrtF
      content opts, removeWs c.text ≠ [] := by
    intro c hcmem
    simp only [chunkDocumentSemantic] at hcmem
    by_cases h0 : normalizeContent content = []
    · rw [if_pos h0] at hcmem
      exact absurd hcmem (List.not_mem_nil c)
    · rw [if_neg h0] at hcmem
      by_cases h1 : (splitter (normalizeContent content)).length ≤ 1
      · rw [if_pos h1] at hcmem
        rw [List.mem_singleton.1 hcmem]
        rw [normalizeContent] at h0 ⊢
        exact removeWs_ne_nil_of_jsTrim_ne_nil h0
      · rw [if_neg h1] at hcmem
        exact mergeSegments_nonblank tokensFor splitter opts _ c hcmem
  intro c hcmem
  refine ⟨?_, hmain c hcmem⟩
  intro h0
  exact hmain c hcmem (by rw [h0]; rfl)

/-- Witness for C10 on a concrete two-sentence document that runs the whole
pipeline. -/
theorem c10_chunks_nonblank_witness :
    (['H', 'i', ' ', ' ', 'y', 'o', 'u'] : List Char) ≠ []
    ∧ removeWs ['H', 'i', ' ', ' ', 'y', 'o', 'u'] ≠ [] := by
  have heval : chunkDocumentSemantic
      (fun l => [l.take 3, l.drop 3]) (fun _ => [])
      (fun l => l.length) (fun q => q) "Hi you".data DEFAULT_OPTIONS =
      [⟨['H', 'i', ' ', ' ', 'y', 'o', 'u'], 2⟩] := by decide
  have := c10_chunks_nonblank (fun l => [l.take 3, l.drop 3])
    (fun _ => []) (fun l => l.length) (fun q => q)
    "Hi you".data DEFAULT_OPTIONS ⟨['H', 'i', ' ', ' ', 'y', 'o', 'u'], 2⟩
    (by rw [heval]; exact List.mem_singleton.2 rfl)
  exact this

/-! ## Claim C1 -/

theorem enforceMaxSizeGo_ne_nil (tokensFor : List Char → ℕ)
    (maxTokens : ℕ) :
    ∀ (fuel : ℕ) (t : List Char),
      enforceMaxSizeGo tokensFor maxTokens fuel t ≠ [] := by
  intro fuel
  induction fuel with
  | zero =>
    intro t
    rw [enforceMaxSizeGo_zero]
    exact List.cons_ne_nil t []
  | succ f _ =>
    intro t
    rw [enforceMaxSizeGo_succ]
    by_cases htok : tokensFor t ≤ maxTokens
    · rw [if_pos htok]; exact List.cons_ne_nil t []
    · rw [if_neg htok]
      by_cases hguard : findSplitPoint t ≤ 0 ∨
          (t.length : ℤ) - 1 ≤ findSplitPoint t
      · rw [if_pos hguard]; exact List.cons_ne_nil t []
      · rw [if_neg hguard]
        by_cases hpieces : ((if jsTrim (t.take (findSplitPoint t).toNat) ≠ []
            then enforceMaxSizeGo tokensFor maxTokens f
              (jsTrim (t.take (findSplitPoint t).toNat))
            else []) ++
          (if jsTrim (t.drop (findSplitPoint t).toNat) ≠ [] then
              enforceMaxSizeGo tokensFor maxTokens f
                (jsTrim (t.drop (findSplitPoint t).toNat))
            else [])) = []
        · rw [if_pos hpieces]; exact List.cons_ne_nil t []
        · rw [if_neg hpieces]; exact hpieces

theorem jsTrim_length_le (l : List Char) : (jsTrim l).length ≤ l.length := by
  rw [jsTrim, List.length_reverse]
  calc ((l.dropWhile isWs).reverse.dropWhile isWs).length
      ≤ (l.dropWhile isWs).reverse.length :=
        (List.dropWhile_sublist isWs).length_le
    _ = (l.dropWhile isWs).length := List.length_reverse _
    _ ≤ l.length := (List.dropWhile_sublist isWs).length_le

theorem enforceMaxSizeGo_fix (tokensFor : List Char → ℕ) (maxTokens : ℕ) :
    ∀ (fuel : ℕ) (t : List Char), t.length ≤ fuel →
      ∀ p ∈ enforceMaxSizeGo tokensFor maxTokens fuel t,
        tokensFor p ≤ maxTokens ∨
          enforceMaxSize tokensFor maxTokens p = [p] := by
  intro fuel
  induction fuel with
  | zero =>
    intro t hfl p hp
    rw [enforceMaxSizeGo_zero] at hp
    rw [List.mem_singleton.1 hp]
    have ht0 : t = [] := List.length_eq_zero.1 (Nat.le_zero.1 hfl)
    right
    rw [enforceMaxSize, ht0]
    exact enforceMaxSizeGo_zero tokensFor maxTokens []
  | succ f ih =>
    intro t hfl p hp
    rw [enforceMaxSizeGo_succ] at hp
    by_cases htok : tokensFor t ≤ maxTokens
    · rw [if_pos htok] at hp
      rw [List.mem_singleton.1 hp]
      exact Or.inl htok
    · rw [if_neg htok] at hp
      by_cases hguard : findSplitPoint t ≤ 0 ∨
          (t.length : ℤ) - 1 ≤ findSplitPoint t
      · rw [if_pos hguard] at hp
        rw [List.mem_singleton.1 hp]
        right
        rw [enforceMaxSize]
        exact enforceMaxSizeGo_guard_stop tokensFor maxTokens _ t hguard
      · rw [if_neg hguard] at hp
        by_cases hpieces : ((if jsTrim (t.take (findSplitPoint t).toNat) ≠ []
            then enforceMaxSizeGo tokensFor maxTokens f
              (jsTrim (t.take (findSplitPoint t).toNat))
            else []) ++
          (if jsTrim (t.drop (findSplitPoint t).toNat) ≠ [] then
              enforceMaxSizeGo tokensFor maxTokens f
                (jsTrim (t.drop (findSplitPoint t).toNat))
            else [])) = []
        · rw [if_pos hpieces] at hp
          rw [List.mem_singleton.1 hp]
          right
          have hnil := List.append_eq_nil.1 hpieces
          have hleft : jsTrim (t.take (findSplitPoint t).toNat) = [] := by
            by_contra hl
            rw [if_pos hl] at hnil
            exact enforceMaxSizeGo_ne_nil tokensFor maxTokens f _ hnil.1
          have hright : jsTrim (t.drop (findSplitPoint t).toNat) = [] := by
            by_contra hr
            rw [if_pos hr] at hnil
            exact enforceMaxSizeGo_ne_nil tokensFor maxTokens f _ hnil.2
          rw [enforceMaxSize]
          rcases hn : t.length with _ | n
          · exact enforceMaxSizeGo_zero tokensFor maxTokens t
          · rw [enforceMaxSizeGo_succ, if_neg htok, if_neg hguard]
            rw [if_pos (by rw [if_neg (fun h0 => h0 hleft),
              if_neg (fun h0 => h0 hright)]; rfl)]
        · rw [if_neg hpieces] at hp
          have hbounds : 0 < findSplitPoint t ∧
              findSplitPoint t < (t.length : ℤ) - 1 := by
            push_neg at hguard
            exact hguard
          have hklen : (findSplitPoint t).toNat + 1 < t.length := by
            omega
          rcases List.mem_append.1 hp with hp1 | hp1
          · by_cases hl : jsTrim (t.take (findSplitPoint t).toNat) ≠ []
            · rw [if_pos hl] at hp1
              refine ih _ ?_ p hp1
              calc (jsTrim (t.take (findSplitPoint t).toNat)).length
                  ≤ (t.take (findSplitPoint t).toNat).length :=
                    jsTrim_length_le _
                _ = min (findSplitPoint t).toNat t.length :=
                    List.length_take _ _
                _ ≤ f := by omega
            · rw [if_neg hl] at hp1
              exact absurd hp1 (List.not_mem_nil p)
          · by_cases hr : jsTrim (t.drop (findSplitPoint t).toNat) ≠ []
            · rw [if_pos hr] at hp1
              refine ih _ ?_ p hp1
              calc (jsTrim (t.drop (findSplitPoint t).toNat)).length
                  ≤ (t.drop (findSplitPoint t).toNat).length :=
                    jsTrim_length_le _
                _ = t.length - (findSplitPoint t).toNat :=
                    List.length_drop _ _
                _ ≤ f := by omega
            · rw [if_neg hr] at hp1
              exact absurd hp1 (List.not_mem_nil p)

theorem enforceMaxSize_fix (tokensFor : List Char → ℕ) (maxTokens : ℕ)
    (t : List Char) :
    ∀ p ∈ enforceMaxSize tokensFor maxTokens t,
      tokensFor p ≤ maxTokens ∨
        enforceMaxSize tokensFor maxTokens p = [p] :=
  enforceMaxSizeGo_fix tokensFor maxTokens t.length t (le_refl _)

theorem mergeCandidate_nil (part : List Char) :
    mergeCandidate [] part = part := by
  rw [mergeCandidate]
  exact if_pos rfl

theorem finalFlush_tokenBound (tokensFor : List Char → ℕ)
    (opts : ResolvedOptions) {st : MergeState}
    (hc : ∀ c ∈ st.chunks, tokensFor c.text ≤ opts.maxTokens ∨
      (opts.maxTokens < tokensFor c.text ∧
        enforceMaxSize tokensFor opts.maxTokens c.text = [c.text]))
    (hq : st.current = [] ∨ tokensFor st.current ≤ opts.maxTokens ∨
      enforceMaxSize tokensFor opts.maxTokens st.current = [st.current]) :
    ∀ c ∈ finalFlush st, tokensFor c.text ≤ opts.maxTokens ∨
      (opts.maxTokens < tokensFor c.text ∧
        enforceMaxSize tokensFor opts.maxTokens c.text = [c.text]) := by
  intro c hcmem
  rw [finalFlush] at hcmem
  by_cases h : jsTrim st.current ≠ []
  · rw [if_pos h] at hcmem
    rcases List.mem_append.1 hcmem with h1 | h1
    · exact hc c h1
    · rw [List.mem_singleton.1 h1]
      show tokensFor st.current ≤ opts.maxTokens ∨
        (opts.maxTokens < tokensFor st.current ∧
          enforceMaxSize tokensFor opts.maxTokens st.current = [st.current])
      by_cases htok : tokensFor st.current ≤ opts.maxTokens
      · exact Or.inl htok
      · rcases hq with hq | hq | hq
        · exact absurd (by rw [hq]; rfl : jsTrim st.current = []) h
        · exact Or.inl hq
        · exact Or.inr ⟨lt_of_not_le htok, hq⟩
  · rw [if_neg h] at hcmem
    exact hc c hcmem

theorem mergePart_tokenBound (tokensFor : List Char → ℕ)
    (splitter : List Char → List (List Char)) (opts : ResolvedOptions)
    {st : MergeState} {part : List Char}
    (hc : ∀ c ∈ st.chunks, tokensFor c.text ≤ opts.maxTokens ∨
      (opts.maxTokens < tokensFor c.text ∧
        enforceMaxSize tokensFor opts.maxTokens c.text = [c.text]))
    (hq : st.current = [] ∨ tokensFor st.current ≤ opts.maxTokens ∨
      enforceMaxSize tokensFor opts.maxTokens st.current = [st.current])
    (hp : tokensFor part ≤ opts.maxTokens ∨
      enforceMaxSize tokensFor opts.maxTokens part = [part]) :
    (∀ c ∈ (mergePart tokensFor splitter opts st part).chunks,
      tokensFor c.text ≤ opts.maxTokens ∨
      (opts.maxTokens < tokensFor c.text ∧
        enforceMaxSize tokensFor opts.maxTokens c.text = [c.text]))
    ∧ ((mergePart tokensFor splitter opts st part).current = [] ∨
        tokensFor (mergePart tokensFor splitter opts st part).current ≤
          opts.maxTokens ∨
        enforceMaxSize tokensFor opts.maxTokens
          (mergePart tokensFor splitter opts st part).current =
          [(mergePart tokensFor splitter opts st part).current]) := by
  have hqpart : part = [] ∨ tokensFor part ≤ opts.maxTokens ∨
      enforceMaxSize tokensFor opts.maxTokens part = [part] :=
    Or.inr hp
  rw [mergePart]
  by_cases hA : opts.maxTokens < tokensFor (mergeCandidate st.current part) ∧
      st.current ≠ []
  · rw [if_pos hA]
    exact ⟨finalFlush_tokenBound tokensFor opts hc hq, hqpart⟩
  · rw [if_neg hA]
    have hA2 : tokensFor (mergeCandidate st.current part) ≤ opts.maxTokens ∨
        st.current = [] := by
      by_cases h1 : tokensFor (mergeCandidate st.current part) ≤
          opts.maxTokens
      · exact Or.inl h1
      · by_cases h2 : st.current = []
        · exact Or.inr h2
        · exact absurd ⟨lt_of_not_le h1, h2⟩ hA
    by_cases hB : opts.targetTokens ≤ tokensFor (mergeCandidate st.current
        part)
    · rw [if_pos hB]
      refine ⟨?_, Or.inl rfl⟩
      intro c hcmem
      rcases List.mem_append.1 hcmem with h1 | h1
      · exact hc c h1
      · rw [List.mem_singleton.1 h1]
        show tokensFor (mergeCandidate st.current part) ≤ opts.maxTokens ∨
          (opts.maxTokens < tokensFor (mergeCandidate st.current part) ∧
            enforceMaxSize tokensFor opts.maxTokens
              (mergeCandidate st.current part) =
              [mergeCandidate st.current part])
        rcases hA2 with h2 | h2
        · exact Or.inl h2
        · rw [h2, mergeCandidate_nil]
          by_cases h3 : tokensFor part ≤ opts.maxTokens
          · exact Or.inl h3
          · rcases hp with hp | hp
            · exact absurd hp h3
            · exact Or.inr ⟨lt_of_not_le h3, hp⟩
    · rw [if_neg hB]
      refine ⟨hc, ?_⟩
      rcases hA2 with h2 | h2
      · exact Or.inr (Or.inl h2)
      · rw [h2, mergeCandidate_nil]
        exact hqpart

theorem foldl_mergePart_tokenBound (tokensFor : List Char → ℕ)
    (splitter : List Char → List (List Char)) (opts : ResolvedOptions) :
    ∀ (parts : List (List Char)) (st : MergeState),
      (∀ p ∈ parts, tokensFor p ≤ opts.maxTokens ∨
        enforceMaxSize tokensFor opts.maxTokens p = [p]) →
      (∀ c ∈ st.chunks, tokensFor c.text ≤ opts.maxTokens ∨
        (opts.maxTokens < tokensFor c.text ∧
          enforceMaxSize tokensFor opts.maxTokens c.text = [c.text])) →
      (st.current = [] ∨ tokensFor st.current ≤ opts.maxTokens ∨
        enforceMaxSize tokensFor opts.maxTokens st.current = [st.current]) →
      (∀ c ∈ (parts.foldl (mergePart tokensFor splitter opts) st).chunks,
        tokensFor c.text ≤ opts.maxTokens ∨
        (opts.maxTokens < tokensFor c.text ∧
          enforceMaxSize tokensFor opts.maxTokens c.text = [c.text]))
      ∧ ((parts.foldl (mergePart tokensFor splitter opts) st).current = [] ∨
          tokensFor (parts.foldl (mergePart tokensFor splitter opts)
            st).current ≤ opts.maxTokens ∨
          enforceMaxSize tokensFor opts.maxTokens
            (parts.foldl (mergePart tokensFor splitter opts) st).current =
            [(parts.foldl (mergePart tokensFor splitter opts)
              st).current]) := by
  intro parts
  induction parts with
  | nil => intro st _ hc hq; exact ⟨hc, hq⟩
  | cons p ps ih =>
    intro st hparts hc hq
    rw [List.foldl_cons]
    have hstep := mergePart_tokenBound tokensFor splitter opts hc hq
      (hparts p (List.mem_cons_self p ps))
    exact ih _ (fun q hqq => hparts q (List.mem_cons_of_mem p hqq)) hstep.1
      hstep.2

theorem mergeSegment_tokenBound (tokensFor : List Char → ℕ)
    (splitter : List Char → List (List Char)) (opts : ResolvedOptions)
    {st : MergeState} (segment : List Char)
    (hc : ∀ c ∈ st.chunks, tokensFor c.text ≤ opts.maxTokens ∨
      (opts.maxTokens < tokensFor c.text ∧
        enforceMaxSize tokensFor opts.maxTokens c.text = [c.text]))
    (hq : st.current = [] ∨ tokensFor st.current ≤ opts.maxTokens ∨
      enforceMaxSize tokensFor opts.maxTokens st.current = [st.current]) :
    (∀ c ∈ (mergeSegment tokensFor splitter opts st segment).chunks,
      tokensFor c.text ≤ opts.maxTokens ∨
      (opts.maxTokens < tokensFor c.text ∧
        enforceMaxSize tokensFor opts.maxTokens c.text = [c.text]))
    ∧ ((mergeSegment tokensFor splitter opts st segment).current = [] ∨
        tokensFor (mergeSegment tokensFor splitter opts st
          segment).current ≤ opts.maxTokens ∨
        enforceMaxSize tokensFor opts.maxTokens
          (mergeSegment tokensFor splitter opts st segment).current =
          [(mergeSegment tokensFor splitter opts st segment).current]) := by
  rw [mergeSegment]
  by_cases h : jsTrim segment = []
  · rw [if_pos h]
    exact ⟨hc, hq⟩
  · rw [if_neg h]
    exact foldl_mergePart_tokenBound tokensFor splitter opts _ st
      (enforceMaxSize_fix tokensFor opts.maxTokens _) hc hq

theorem foldl_mergeSegment_tokenBound (tokensFor : List Char → ℕ)
    (splitter : List Char → List (List Char)) (opts : ResolvedOptions) :
    ∀ (segments : List (List Char)) (st : MergeState),
      (∀ c ∈ st.chunks, tokensFor c.text ≤ opts.maxTokens ∨
        (opts.maxTokens < tokensFor c.text ∧
          enforceMaxSize tokensFor opts.maxTokens c.text = [c.text])) →
      (st.current = [] ∨ tokensFor st.current ≤ opts.maxTokens ∨
        enforceMaxSize tokensFor opts.maxTokens st.current = [st.current]) →
      (∀ c ∈ (segments.foldl (mergeSegment tokensFor splitter opts)
          st).chunks,
        tokensFor c.text ≤ opts.maxTokens ∨
        (opts.maxTokens < tokensFor c.text ∧
          enforceMaxSize tokensFor opts.maxTokens c.text = [c.text]))
      ∧ ((segments.foldl (mergeSegment tokensFor splitter opts)
          st).current = [] ∨
          tokensFor (segments.foldl (mergeSegment tokensFor splitter opts)
            st).current ≤ opts.maxTokens ∨
          enforceMaxSize tokensFor opts.maxTokens
            (segments.foldl (mergeSegment tokensFor splitter opts)
              st).current =
            [(segments.foldl (mergeSegment tokensFor splitter opts)
              st).current]) := by
  intro segments
  induction segments with
  | nil => intro st hc hq; exact ⟨hc, hq⟩
  | cons s ss ih =>
    intro st hc hq
    rw [List.foldl_cons]
    have hstep := mergeSegment_tokenBound tokensFor splitter opts s hc hq
    exact ih _ hstep.1 hstep.2

theorem normalizeStep_tokenBound (opts : ResolvedOptions)
    (tokensFor : List Char → ℕ) {acc : List SemanticChunk}
    {c : SemanticChunk}
    (hacc : ∀ x ∈ acc, tokensFor x.text ≤ opts.maxTokens ∨
      (opts.maxTokens < tokensFor x.text ∧
        enforceMaxSize tokensFor opts.maxTokens x.text = [x.text]))
    (hcin : tokensFor c.text ≤ opts.maxTokens ∨
      (opts.maxTokens < tokensFor c.text ∧
        enforceMaxSize tokensFor opts.maxTokens c.text = [c.text])) :
    ∀ x ∈ normalizeStep opts tokensFor acc c,
      tokensFor x.text ≤ opts.maxTokens ∨
      (opts.maxTokens < tokensFor x.text ∧
        enforceMaxSize tokensFor opts.maxTokens x.text = [x.text]) := by
  intro x hx
  rw [normalizeStep] at hx
  by_cases h1 : tokensFor c.text < opts.minTokens ∧ acc ≠ []
  · rw [if_pos h1] at hx
    rcases hl : acc.getLast? with _ | prev
    · rw [hl] at hx
      have hx2 : x ∈ acc ++ [c] := hx
      rcases List.mem_append.1 hx2 with h2 | h2
      · exact hacc x h2
      · rw [List.mem_singleton.1 h2]
        exact hcin
    · rw [hl] at hx
      have hx2 : x ∈ (if tokensFor (prev.text ++ ['\n', '\n'] ++
          c.text) ≤ opts.maxTokens then acc.dropLast ++
          [⟨prev.text ++ ['\n', '\n'] ++ c.text,
            prev.sentenceCount + c.sentenceCount⟩] else acc ++ [c]) := hx
      clear hx
      by_cases h2 : tokensFor (prev.text ++ ['\n', '\n'] ++ c.text) ≤
          opts.maxTokens
      · rw [if_pos h2] at hx2
        rcases List.mem_append.1 hx2 with h3 | h3
        · exact hacc x (List.Sublist.mem h3 (List.dropLast_sublist acc))
        · rw [List.mem_singleton.1 h3]
          exact Or.inl h2
      · rw [if_neg h2] at hx2
        rcases List.mem_append.1 hx2 with h3 | h3
        · exact hacc x h3
        · rw [List.mem_singleton.1 h3]
          exact hcin
  · rw [if_neg h1] at hx
    rcases List.mem_append.1 hx with h3 | h3
    · exact hacc x h3
    · rw [List.mem_singleton.1 h3]
      exact hcin

theorem normalizeSmallChunks_tokenBound (chunks : List SemanticChunk)
    (opts : ResolvedOptions) (tokensFor : List Char → ℕ)
    (hc : ∀ c ∈ chunks, tokensFor c.text ≤ opts.maxTokens ∨
      (opts.maxTokens < tokensFor c.text ∧
        enforceMaxSize tokensFor opts.maxTokens c.text = [c.text])) :
    ∀ c ∈ normalizeSmallChunks chunks opts tokensFor,
      tokensFor c.text ≤ opts.maxTokens ∨
      (opts.maxTokens < tokensFor c.text ∧
        enforceMaxSize tokensFor opts.maxTokens c.text = [c.text]) := by
  rw [normalizeSmallChunks]
  by_cases h : chunks.length ≤ 1
  · rw [if_pos h]
    exact hc
  · rw [if_neg h]
    have hgen : ∀ (cs : List SemanticChunk) (acc : List SemanticChunk),
        (∀ c ∈ cs, tokensFor c.text ≤ opts.maxTokens ∨
          (opts.maxTokens < tokensFor c.text ∧
            enforceMaxSize tokensFor opts.maxTokens c.text = [c.text])) →
        (∀ c ∈ acc, tokensFor c.text ≤ opts.maxTokens ∨
          (opts.maxTokens < tokensFor c.text ∧
            enforceMaxSize tokensFor opts.maxTokens c.text = [c.text])) →
        ∀ c ∈ cs.foldl (normalizeStep opts tokensFor) acc,
          tokensFor c.text ≤ opts.maxTokens ∨
          (opts.maxTokens < tokensFor c.text ∧
            enforceMaxSize tokensFor opts.maxTokens c.text = [c.text]) := by
      intro cs
      induction cs with
      | nil => intro acc _ hacc; exact hacc
      | cons c0 rest ih =>
        intro acc hcs hacc
        rw [List.foldl_cons]
        exact ih _ (fun q hqq => hcs q (List.mem_cons_of_mem c0 hqq))
          (normalizeStep_tokenBound opts tokensFor hacc
            (hcs c0 (List.mem_cons_self c0 rest)))
    exact hgen chunks [] hc (by simp)

/-- C1 (amended): every chunk produced by the size normalizer
(`mergeSegments` followed by `normalizeSmallChunks`) either satisfies
`tokens(chunk) ≤ maxTokens`, or exceeds `maxTokens` and is a single
indivisible piece that `enforceMaxSize` returns unchanged (the flagged
oversized case).  The `minTokens` lower bound of the frozen claim is not an
invariant: a chunk below `minTokens` survives when it has no predecessor to
merge into or when the merged pair would exceed `maxTokens` (see the
counterexample). -/
theorem c1_token_upper_bound (tokensFor : List Char → ℕ)
    (splitter : List Char → List (List Char)) (opts : ResolvedOptions)
    (segments : List (List Char)) :
    ∀ c ∈ mergeSegments tokensFor splitter opts segments,
      tokensFor c.text ≤ opts.maxTokens ∨
      (opts.maxTokens < tokensFor c.text ∧
        enforceMaxSize tokensFor opts.maxTokens c.text = [c.text]) := by
  rw [mergeSegments]
  by_cases h : segments = []
  · rw [if_pos h]
    simp
  · rw [if_neg h]
    refine normalizeSmallChunks_tokenBound _ _ _ ?_
    refine finalFlush_tokenBound tokensFor opts ?_ ?_
    · exact (foldl_mergeSegment_tokenBound tokensFor splitter opts segments
        ⟨[], [], 0⟩ (by simp) (Or.inl rfl)).1
    · exact (foldl_mergeSegment_tokenBound tokensFor splitter opts segments
        ⟨[], [], 0⟩ (by simp) (Or.inl rfl)).2

/-- Counterexample for C1 as frozen: the single-segment document "hi"
(2 tokens under the character-count estimator) yields one chunk of 2 tokens,
strictly below `minTokens = 400`, and that chunk is not an
oversized-indivisible exception (2 ≤ maxTokens): the minTokens lower bound
fails. -/
theorem c1_counterexample :
    mergeSegments (fun l => l.length) (fun _ => []) DEFAULT_OPTIONS
      [['h', 'i']] = [⟨['h', 'i'], 1⟩]
    ∧ (['h', 'i'] : List Char).length < DEFAULT_OPTIONS.minTokens
    ∧ (['h', 'i'] : List Char).length ≤ DEFAULT_OPTIONS.maxTokens := by
  refine ⟨by decide, by decide, by decide⟩

/-- Witness for C1 (amended) at a concrete input. -/
theorem c1_token_upper_bound_witness :
    (['h', 'i'] : List Char).length ≤ DEFAULT_OPTIONS.maxTokens ∨
    (DEFAULT_OPTIONS.maxTokens < (['h', 'i'] : List Char).length ∧
      enforceMaxSize (fun l => l.length) DEFAULT_OPTIONS.maxTokens
        ['h', 'i'] = [['h', 'i']]) :=
  c1_token_upper_bound (fun l => l.length) (fun _ => []) DEFAULT_OPTIONS
    [['h', 'i']] ⟨['h', 'i'], 1⟩ (by decide)

end DocIndex
